import Mathlib

/-!
Verification development for the smiles-drawer sources: a shallow embedding of
the graph builder (`src/Graph.ts`), the ring-connection classifier
(`src/RingConnection.ts`), the atom constructor (`src/Atom.ts`), the edge bond
table (the `Edge` class), the permutation-parity helper (`src/MathHelper.ts`)
and the theme color lookup (`src/ThemeManager.ts`), together with theorems
about them.

Conventions of the embedding: JavaScript numbers holding non-negative integers
become `Nat`; `null`/`undefined`-able values become `Option`; JS `Set` becomes
`Finset`; in-place mutation of the graph becomes explicit state passing on
`GraphState`; JS array indexing that would dereference `undefined` (and hence
throw) becomes an `Except` error.
-/

namespace SD

/-- Upper-casing as performed by the JavaScript `toUpperCase` on the ASCII
element symbols used here, written via `Char.toUpper` so that it evaluates by
kernel reduction. -/
def jsToUpper (s : String) : String :=
  String.mk (s.data.map Char.toUpper)

/-- A ring-closure annotation of a parse-tree atom (`node.ringbonds` entries). -/
structure Ringbond where
  rbId : Int
  bondType : String
deriving Repr, DecidableEq

/-- The payload of a bracket atom in the parse tree (`node.atom` when it is an
object).  The parser field `class` is called `cls` here because `class` is a
Lean keyword.  An absent `hcount` is modelled as `0`, which is observably
equivalent in `Graph._init` (the stereo-hydrogen loop runs zero times and the
`order` argument fed from `offset` is never read); an absent `chirality` is
modelled as the empty string, which is falsy in JavaScript exactly like the
absent value. -/
structure Bracket where
  element : String
  hcount : Nat
  chirality : String
  charge : Int
  isotope : Option Nat
  cls : Option Nat
deriving Repr, DecidableEq

/-- A parse-tree `node.atom`: either a plain element string or a bracket atom.
Bracket atoms carry a nonempty element symbol by the parse-tree shape, which is
what makes the JavaScript truthiness test `node.atom.element ?` coincide with
the case split on this type. -/
inductive AtomSpec where
  | simple (element : String)
  | bracket (b : Bracket)
deriving Repr, DecidableEq

/-- The atom payload of a vertex.  It merges the fields of the `Atom` class of
`src/Atom.ts` that the claims touch with the fields of the atom object literal
built inside `Graph._init`; fields the literal does not set (`rings`,
`chirality`) keep their class defaults. -/
structure Atom where
  idx : Option Nat
  element : String
  bondType : String
  branchBond : Option String
  ringbonds : List Ringbond
  rings : List Nat
  bracket : Option Bracket
  cls : Option Nat
  isStereoCenter : Bool
  isPartOfAromaticRing : Bool
  bondCount : Nat
  chirality : String
  neighbouringElements : List String
deriving Repr, DecidableEq

/-- The constructor of the `Atom` class (`src/Atom.ts`, lines 57 to 86): a
one-letter element symbol is stored upper-cased, and the aromatic flag records
whether the supplied string differs from the stored one. -/
def Atom.make (element : String) (bondType : String) : Atom :=
  let stored : String := if element.length = 1 then jsToUpper element else element
  { idx := none
    element := stored
    bondType := bondType
    branchBond := none
    ringbonds := []
    rings := []
    bracket := none
    cls := none
    isStereoCenter := false
    isPartOfAromaticRing := element != stored
    bondCount := 0
    chirality := ""
    neighbouringElements := [] }

/-- A vertex of the molecular graph, as produced by `Graph.createVertex`. -/
structure Vertex where
  id : Nat
  value : Atom
  neighbours : List Nat
  edges : List Nat
  spanningTreeChildren : List Nat
  parentVertexId : Option Nat
  positioned : Bool
  forcePositioned : Bool
deriving Repr, DecidableEq

/-- An edge of the molecular graph (fields of the `Edge` class). -/
structure Edge where
  id : Nat
  sourceId : Nat
  targetId : Nat
  weight : Nat
  bondType : String
  isPartOfAromaticRing : Bool
  center : Bool
  wedge : String
deriving Repr, DecidableEq

/-- The fixed bond-type symbol table `Edge.bonds` of the `Edge` class; an
unknown symbol yields `none` (JavaScript `undefined`). -/
def Edge.bonds (bondType : String) : Option Nat :=
  if bondType = "-" then some 1
  else if bondType = "/" then some 1
  else if bondType = "\\" then some 1
  else if bondType = "=" then some 2
  else if bondType = "#" then some 3
  else if bondType = "$" then some 4
  else none

/-- The `setBondType` method of the `Edge` class: it stores the symbol and
resolves the weight through the `Edge.bonds` table (an unknown symbol would
leave the weight `undefined` in JavaScript; it is modelled as `0`, but every
claim only exercises the six table symbols). -/
def Edge.setBondTypeClass (e : Edge) (bondType : String) : Edge :=
  { e with bondType := bondType, weight := (Edge.bonds bondType).getD 0 }

/-- The local `setBondType` of the edge object literal created inside
`Graph._init` (src/Graph.ts lines 130 to 132): it stores the symbol only and
never touches the weight. -/
def Edge.setBondTypeLiteral (e : Edge) (bondType : String) : Edge :=
  { e with bondType := bondType }

/-- A SMILES parse-tree node.  `branchCount`, `ringbondCount` and `hasNext` of
the documented shape are the derived quantities `branches.length`,
`ringbonds.length` and `next.isSome` of a proper rooted tree. -/
inductive ParseTreeNode where
  | mk (atom : AtomSpec) (bond : String) (branchBond : Option String)
      (ringbonds : List Ringbond) (branches : List ParseTreeNode)
      (next : Option ParseTreeNode)

def ParseTreeNode.atom : ParseTreeNode → AtomSpec
  | .mk a _ _ _ _ _ => a

def ParseTreeNode.bond : ParseTreeNode → String
  | .mk _ b _ _ _ _ => b

def ParseTreeNode.branchBond : ParseTreeNode → Option String
  | .mk _ _ bb _ _ _ => bb

def ParseTreeNode.ringbonds : ParseTreeNode → List Ringbond
  | .mk _ _ _ rb _ _ => rb

def ParseTreeNode.branches : ParseTreeNode → List ParseTreeNode
  | .mk _ _ _ _ bs _ => bs

def ParseTreeNode.next : ParseTreeNode → Option ParseTreeNode
  | .mk _ _ _ _ _ nx => nx

def ParseTreeNode.branchCount (t : ParseTreeNode) : Nat :=
  t.branches.length

def ParseTreeNode.ringbondCount (t : ParseTreeNode) : Nat :=
  t.ringbonds.length

def ParseTreeNode.hasNext (t : ParseTreeNode) : Bool :=
  t.next.isSome

/-- The mutable state of a `Graph` under construction: the `vertices`,
`edges`, `atomIdxToVertexId` fields together with the private heavy-atom
counter `_atomIdx`. -/
structure GraphState where
  vertices : List Vertex
  edges : List Edge
  atomIdxToVertexId : List Nat
  atomIdx : Nat
deriving Repr

/-- The vertex object literal returned by `Graph.createVertex`. -/
def createVertex (atom : Atom) : Vertex :=
  { id := 0
    value := atom
    neighbours := []
    edges := []
    spanningTreeChildren := []
    parentVertexId := none
    positioned := false
    forcePositioned := false }

/-- Modelled from the spec: `Graph.addVertex` is called by `Graph._init` but
its body is absent from the given sources; the spec invariant says vertex ids
are dense `0..n-1` in creation order, so it assigns the next dense id and
appends the vertex. -/
def addVertexModel (st : GraphState) (v : Vertex) : GraphState :=
  { st with vertices := st.vertices ++ [{ v with id := st.vertices.length }] }

/-- Modelled from the spec: `Graph.addEdge` is called by `Graph._init` but its
body is absent from the given sources; the spec invariant says edge ids are
dense `0..n-1`, so it assigns the next dense id and appends the edge. -/
def addEdgeModel (st : GraphState) (e : Edge) : GraphState :=
  { st with edges := st.edges ++ [{ e with id := st.edges.length }] }

/-- Replace the vertex stored at index `i` (in JavaScript the vertices held in
`this.vertices` are mutated through shared references). -/
def modifyVertexAt (st : GraphState) (i : Nat) (f : Vertex → Vertex) : GraphState :=
  { st with vertices := st.vertices.modify f i }

/-- The JavaScript expression `s || "-"` for a nullable bond symbol: the empty
string and `null` are falsy. -/
def orDash : Option String → String
  | some s => if s = "" then "-" else s
  | none => "-"

/-- Whether `Graph._init` assigns a dense heavy-atom index to the atom of a
node: its element is not `"H"`, or the node has no chain continuation and is
handed a null parent vertex id. -/
def nodeHasIdx (t : ParseTreeNode) (parentIsNull : Bool) : Bool :=
  (match t.atom with
   | .simple s => s
   | .bracket b => b.element) != "H" || (t.next.isNone && parentIsNull)

/-- The element string of a parse-tree atom: `node.atom.element ? node.atom.element : node.atom`. -/
def atomElement (node : ParseTreeNode) : String :=
  match node.atom with
  | .simple s => s
  | .bracket b => b.element

/-- The bracket payload recorded on the atom: `node.atom.element ? node.atom : null`. -/
def atomBracket (node : ParseTreeNode) : Option Bracket :=
  match node.atom with
  | .simple _ => none
  | .bracket b => some b

/-- The atom object literal built at the top of `Graph._init` (src/Graph.ts
lines 74 to 100): bond data copied from the node, the dense heavy-atom index
when the element is not a suppressed hydrogen, and the bracket and class
fields of a bracket atom. -/
def initAtom (node : ParseTreeNode) (parentIsNull : Bool) (atomIdx : Nat) : Atom :=
  { idx := if nodeHasIdx node parentIsNull then some atomIdx else none
    element := atomElement node
    bondType := node.bond
    branchBond := node.branchBond
    ringbonds := node.ringbonds
    rings := []
    bracket := atomBracket node
    cls := match node.atom with
      | .simple _ => none
      | .bracket b => b.cls
    isStereoCenter := false
    isPartOfAromaticRing := false
    bondCount := 0
    chirality := ""
    neighbouringElements := [] }

/-- Lines 113 to 114 of `Graph._init`: `vertex.setParentVertexId(parentVertexId)`
and `vertex.value.addNeighbouringElement(parentVertex.value.element)`. -/
def linkToParent (pid : Nat) (parentElement : String) (v : Vertex) : Vertex :=
  { v with
    parentVertexId := some pid
    value := { v.value with
      neighbouringElements := v.value.neighbouringElements ++ [parentElement] } }

/-- Lines 115 to 120 of `Graph._init`: `parentVertex.addChild(vertex.id)`,
`parentVertex.value.addNeighbouringElement(atom.element)` and
`parentVertex.spanningTreeChildren.push(vertex.id)`. -/
def recordChild (vid : Nat) (childElement : String) (v : Vertex) : Vertex :=
  { v with
    neighbours := v.neighbours ++ [vid]
    value := { v.value with
      neighbouringElements := v.value.neighbouringElements ++ [childElement] }
    spanningTreeChildren := v.spanningTreeChildren ++ [vid] }

/-- Lines 102 to 145 of `Graph._init`: create the vertex object, append it
(with the next dense id), push its id onto `atomIdxToVertexId` when the atom
received a heavy-atom index, and, when a parent vertex id was handed in, link
child and parent and append the connecting edge.  The parent vertex is read
from the pre-push vertex array exactly like the source, which captures the
reference before calling `addVertex`.  Returns the new vertex id.  The local
`setBondType` of the edge literal stores the symbol only, so the edge keeps
its initial weight 1. -/
def addNodeVertex (st : GraphState) (node : ParseTreeNode)
    (parentVertexId : Option Nat) (isBranch : Bool) :
    Except String (GraphState × Nat) :=
  let atom := initAtom node parentVertexId.isNone st.atomIdx
  let vid := st.vertices.length
  let st1 := addVertexModel
    { st with
      atomIdx := if nodeHasIdx node parentVertexId.isNone then st.atomIdx + 1 else st.atomIdx }
    (createVertex atom)
  let st2 := if nodeHasIdx node parentVertexId.isNone then
      { st1 with atomIdxToVertexId := st1.atomIdxToVertexId ++ [vid] }
    else st1
  match parentVertexId with
  | none => pure (st2, vid)
  | some pid =>
    match st.vertices[pid]? with
    | none => throw "missing parent vertex"
    | some parentVertex =>
      let st3 := modifyVertexAt st2 vid (linkToParent pid parentVertex.value.element)
      let st4 := modifyVertexAt st3 pid (recordChild vid atom.element)
      let edge0 : Edge :=
        { id := 0, sourceId := pid, targetId := vid, weight := 1, bondType := ""
          isPartOfAromaticRing := false, center := false, wedge := "" }
      let bt : String :=
        if isBranch then orDash node.branchBond
        else orDash (some parentVertex.value.bondType)
      pure (addEdgeModel st4 (Edge.setBondTypeLiteral edge0 bt), vid)

/-- The literal hydrogen leaf node `{atom: "H", bond: "-", ...}` that
`Graph._init` feeds to its recursive call for each stereo hydrogen. -/
def stereoHLeaf : ParseTreeNode :=
  .mk (.simple "H") "-" none [] [] none

/-- One iteration of the stereo-hydrogen loop of `Graph._init`: the recursive
`this._init({atom: "H", ...}, i, vertex.id, true)` call on the literal
hydrogen leaf.  On that leaf the recursion reduces to its vertex-creation
stage (the theorem `initNode_stereoHLeaf` checks this against `initNode`). -/
def addStereoH (st : GraphState) (parentVid : Nat) : Except String GraphState := do
  let r ← addNodeVertex st stereoHLeaf (some parentVid) true
  pure r.1

/-- The stereo-hydrogen loop `for (let i = 0; i < stereoHydrogens; i++)`. -/
def addStereoHs (st : GraphState) (count : Nat) (parentVid : Nat) : Except String GraphState :=
  match count with
  | 0 => pure st
  | k + 1 => do addStereoHs (← addStereoH st parentVid) k parentVid

/-- Lines 153 to 175 of `Graph._init`: when the atom is a bracket atom with a
truthy chirality tag, mark the vertex as a stereocenter and insert its bracket
hydrogens; otherwise leave the state untouched. -/
def initStereo (stA : GraphState) (vid : Nat) (brk : Option Bracket) :
    Except String GraphState :=
  match brk with
  | some b =>
    if b.chirality != "" then
      addStereoHs
        (modifyVertexAt stA vid (fun v =>
          { v with value := { v.value with isStereoCenter := true } }))
        b.hcount vid
    else pure stA
  | none => pure stA

mutual

/-- Embedding of `Graph._init` (src/Graph.ts lines 67 to 184): the
vertex-creation and linking stage `addNodeVertex`, then the stereo-hydrogen
stage `initStereo`, then the tail stage `initTail` (branch loop and chain
recursion).  The `order` argument is carried exactly like in the source,
where it is never read. -/
def initNode (st : GraphState) (node : ParseTreeNode) (order : Nat)
    (parentVertexId : Option Nat) (isBranch : Bool) : Except String GraphState := do
  match node with
  | .mk atomSpec bond branchBond ringbonds branches nextOpt =>
    let r ← addNodeVertex st (.mk atomSpec bond branchBond ringbonds branches nextOpt)
      parentVertexId isBranch
    let stA := r.1
    let vid := r.2
    let offset := ringbonds.length + 1 +
      (match atomBracket (.mk atomSpec bond branchBond ringbonds branches nextOpt) with
       | some b => b.hcount
       | none => 0)
    let stB ← initStereo stA vid
      (atomBracket (.mk atomSpec bond branchBond ringbonds branches nextOpt))
    initTail stB branches offset vid (branches.length + offset) nextOpt
termination_by sizeOf node
decreasing_by
all_goals simp
all_goals omega

/-- Lines 177 to 183 of `Graph._init`: the branch loop followed by the
recursion into the chain continuation (`node.next`).  The chain call receives
`node.branchCount + offset` as its `order` argument, precomputed here as
`ord2`. -/
def initTail (stB : GraphState) (bs : List ParseTreeNode) (off vid ord2 : Nat)
    (nxo : Option ParseTreeNode) : Except String GraphState := do
  let stC ← initBranches stB bs off vid
  match nxo with
  | some nx => initNode stC nx ord2 (some vid) false
  | none => pure stC
termination_by sizeOf bs + sizeOf nxo
decreasing_by
· cases nxo <;> simp <;> omega
· simp
  omega

/-- The branch loop `for (let i = 0; i < node.branchCount; i++)` of
`Graph._init`; `i` starts at the offset value fed to the `order` argument. -/
def initBranches (st : GraphState) (bs : List ParseTreeNode) (i : Nat) (vid : Nat) :
    Except String GraphState :=
  match bs with
  | [] => pure st
  | b :: rest => do initBranches (← initNode st b i (some vid) true) rest (i + 1) vid
termination_by sizeOf bs
decreasing_by
all_goals simp only [List.cons.sizeOf_spec]
all_goals omega

end

/-- The molecular graph as assembled by the `Graph` constructor. -/
structure Graph where
  vertices : List Vertex
  edges : List Edge
  atomIdxToVertexId : List Nat
  isomeric : Bool
deriving Repr

/-- The `Graph` constructor (src/Graph.ts lines 45 to 58): fresh state, then
`this._init(parseTree)`. -/
def Graph.buildE (parseTree : ParseTreeNode) (isomeric : Bool) : Except String Graph :=
  match initNode { vertices := [], edges := [], atomIdxToVertexId := [], atomIdx := 0 }
      parseTree 0 none false with
  | .ok st =>
    .ok { vertices := st.vertices, edges := st.edges
          atomIdxToVertexId := st.atomIdxToVertexId, isomeric := isomeric }
  | .error e => .error e

/-- The successful result of the `Graph` constructor (the totality theorem for
claim C5 shows `Graph.buildE` never takes the error branch). -/
def Graph.build (parseTree : ParseTreeNode) (isomeric : Bool) : Graph :=
  match Graph.buildE parseTree isomeric with
  | .ok g => g
  | .error _ => { vertices := [], edges := [], atomIdxToVertexId := [], isomeric := isomeric }

mutual

/-- The number of atom nodes of a parse tree. -/
def numAtoms : ParseTreeNode → Nat
  | .mk _ _ _ _ branches nextOpt =>
    1 + numAtomsList branches +
      (match nextOpt with
       | some nx => numAtoms nx
       | none => 0)

/-- The number of atom nodes of a list of parse trees. -/
def numAtomsList : List ParseTreeNode → Nat
  | [] => 0
  | b :: rest => numAtoms b + numAtomsList rest

end

mutual

/-- The number of stereo hydrogens a parse tree carries: for each bracket atom
with a chirality tag, its bracket hydrogen count. -/
def numStereoH : ParseTreeNode → Nat
  | .mk atomSpec _ _ _ branches nextOpt =>
    (match atomSpec with
     | .bracket b => if b.chirality != "" then b.hcount else 0
     | .simple _ => 0) +
    numStereoHList branches +
      (match nextOpt with
       | some nx => numStereoH nx
       | none => 0)

/-- The number of stereo hydrogens carried by a list of parse trees. -/
def numStereoHList : List ParseTreeNode → Nat
  | [] => 0
  | b :: rest => numStereoH b + numStereoHList rest

end

mutual

/-- The number of parse-tree atoms that receive a heavy-atom index; only the
root node can be handed a null parent vertex id. -/
def numHeavy : ParseTreeNode → Bool → Nat
  | .mk a bo bb rb branches nextOpt, isRoot =>
    (if nodeHasIdx (.mk a bo bb rb branches nextOpt) isRoot then 1 else 0) +
      numHeavyList branches +
      (match nextOpt with
       | some nx => numHeavy nx false
       | none => 0)

/-- The number of heavy-atom indices handed out across a list of parse trees
(never in root position). -/
def numHeavyList : List ParseTreeNode → Nat
  | [] => 0
  | b :: rest => numHeavy b false + numHeavyList rest

end

/-- A perceived ring.  Modelled from the spec: the `Ring` class is absent from
the given sources (only `RingConnection.ts` consumes it); the spec data model
gives it an id and the ordered member vertex ids, which are the only fields
`RingConnection` reads. -/
structure Ring where
  id : Nat
  members : List Nat
deriving Repr, DecidableEq

/-- The double loop of the `RingConnection` constructor collecting into the
`vertices` set every member of the first ring that equals some member of the
second ring. -/
def sharedVerticesLoop (first second : List Nat) : Finset Nat :=
  first.foldl
    (fun acc c => second.foldl (fun acc2 d => if c = d then insert c acc2 else acc2) acc)
    ∅

/-- A ring connection (`src/RingConnection.ts`): the pair of ring ids and the
set of shared vertex ids. -/
structure RingConnection where
  id : Option Nat
  firstRingId : Nat
  secondRingId : Nat
  vertices : Finset Nat
deriving DecidableEq

/-- The `RingConnection` constructor (src/RingConnection.ts lines 24 to 41). -/
def RingConnection.make (firstRing secondRing : Ring) : RingConnection :=
  { id := none
    firstRingId := firstRing.id
    secondRingId := secondRing.id
    vertices := sharedVerticesLoop firstRing.members secondRing.members }

/-- A throwaway vertex used to give `List.getD` a default; `isBridge` is only
invoked with shared vertex ids that index into the molecule vertex array (an
out-of-range id would make the JavaScript throw on `undefined.value`). -/
def dummyVertex : Vertex :=
  createVertex (Atom.make "C" "-")

/-- The instance method `RingConnection.isBridge` (src/RingConnection.ts lines
82 to 94): true when the shared-vertex set has more than two members, or when
some shared vertex belongs to more than two rings. -/
def RingConnection.isBridge (rc : RingConnection) (vertices : List Vertex) : Bool :=
  if 2 < rc.vertices.card then true
  else decide (∃ vid ∈ rc.vertices, 2 < ((vertices.getD vid dummyVertex).value.rings.length))

/-- The inner recursion `traverseCycle` of `MathHelper.parityOfPermutation`
(src/MathHelper.ts lines 142 to 153): walk `i, arr[i], arr[arr[i]], ...`,
marking each index visited, until a visited index is reached, and return the
number of steps together with the updated visited marks.  An out-of-range
index is treated as visited so that the recursion is total; the source would
never terminate there, and the permutation hypothesis of the theorems keeps
every index in range. -/
def traverseCycle (arr : List Nat) (visited : List Bool) (i : Nat) (cycleLength : Nat) :
    Nat × List Bool :=
  if h : visited.getD i true = true then (cycleLength, visited)
  else traverseCycle arr (visited.set i true) (arr.getD i 0) (cycleLength + 1)
termination_by visited.count false
decreasing_by
have h2 : visited.getD i true = false := by simpa using h
clear h
induction visited generalizing i with
| nil => simp [List.getD] at h2
| cons b t ih =>
  cases i with
  | zero =>
    simp only [List.getD_cons_zero] at h2
    subst h2
    simp [List.count_cons]
  | succ j =>
    simp only [List.getD_cons_succ] at h2
    have := ih j h2
    simp only [List.set_cons_succ, List.count_cons]
    omega

/-- The driving loop of `MathHelper.parityOfPermutation`: scan the indices in
order, traverse the cycle of each unvisited index, and accumulate
`1 - cycleLength % 2` for each cycle found. -/
def parityAux (arr : List Nat) (i : Nat) (visited : List Bool) (evenCount : Nat) : Nat :=
  if i < arr.length then
    if visited.getD i false = true then parityAux arr (i + 1) visited evenCount
    else
      let r := traverseCycle arr visited i 0
      parityAux arr (i + 1) r.2 (evenCount + (1 - r.1 % 2))
  else evenCount
termination_by arr.length - i
decreasing_by
all_goals omega

/-- Embedding of `MathHelper.parityOfPermutation` (src/MathHelper.ts lines 138
to 165): `-1` when the number of even-length cycles is odd, else `1`. -/
def parityOfPermutation (arr : List Nat) : Int :=
  let evenLengthCycleCount := parityAux arr 0 (List.replicate arr.length false) 0
  if evenLengthCycleCount % 2 = 1 then -1 else 1

/-- Embedding of `ThemeManager.getColor` (src/ThemeManager.ts lines 16 to 26).
A loaded theme is a record from keys to hex colors, modelled as an association
list; `none` models a JavaScript `undefined` property.  A non-empty key is
upper-cased and returned when present; every other case falls back to the
`"C"` (carbon) entry. -/
def getColor (theme : List (String × String)) (key : String) : Option String :=
  if key ≠ "" then
    match theme.lookup (jsToUpper key) with
    | some v => some v
    | none => theme.lookup "C"
  else theme.lookup "C"

/-- The vertex `w` extends the vertex `v`: every field agrees except that the
neighbour list, the spanning-tree child list and the neighbouring-element list
may have grown at the end.  This is exactly how `Graph._init` touches an
already-existing vertex. -/
def VertexExt (v w : Vertex) : Prop :=
  ∃ n1 n2 n3,
    w = { v with
      neighbours := v.neighbours ++ n1
      spanningTreeChildren := v.spanningTreeChildren ++ n2
      value := { v.value with
        neighbouringElements := v.value.neighbouringElements ++ n3 } }

/-- The heavy-atom indices carried by a vertex list, in vertex order. -/
def idxList (l : List Vertex) : List Nat :=
  l.filterMap (fun v => v.value.idx)

/-- The vertex ids of the vertices that carry a heavy-atom index, in vertex
order; the specification of the `atomIdxToVertexId` map. -/
def aivList (l : List Vertex) : List Nat :=
  (l.filter (fun v => v.value.idx.isSome)).map (fun v => v.id)

/-- The common shape of every state transition performed by `Graph._init` when
handed the parent vertex id `pOpt`: existing vertices other than the parent
are untouched, the parent is only extended, the freshly appended vertices have
dense ids, a parent created in the same pass (or the handed parent) that lists
them as children, and heavy-atom indices continuing the running counter. -/
structure BuildStep (st : GraphState) (pOpt : Option Nat) (idxCount : Nat)
    (atomCount : Nat) (st2 : GraphState) : Prop where
  lenEq : st2.vertices.length = st.vertices.length + atomCount
  frameOther : ∀ j v, (∀ p, pOpt = some p → j ≠ p) → st.vertices[j]? = some v →
    st2.vertices[j]? = some v
  frameParent : ∀ p, pOpt = some p → ∀ v, st.vertices[p]? = some v →
    ∃ w, st2.vertices[p]? = some w ∧ VertexExt v w
  newIds : ∀ j w, st.vertices.length ≤ j → st2.vertices[j]? = some w → w.id = j
  newParent : ∀ j w, st.vertices.length ≤ j → st2.vertices[j]? = some w →
    st.vertices.length < j ∨ (∃ p, pOpt = some p) →
    ∃ q qw, w.parentVertexId = some q ∧ q < j ∧ st2.vertices[q]? = some qw ∧
      j ∈ qw.spanningTreeChildren ∧ j ∈ qw.neighbours
  newIdxSome : ∀ j w, st.vertices.length ≤ j → st2.vertices[j]? = some w →
    st.vertices.length < j ∨ (∃ p, pOpt = some p) →
    w.value.idx.isSome = (w.value.element != "H")
  idxListEq : idxList st2.vertices = idxList st.vertices ++ List.range' st.atomIdx idxCount
  atomIdxEq : st2.atomIdx = st.atomIdx + idxCount
  aivEq : st.atomIdxToVertexId = aivList st.vertices →
    st2.atomIdxToVertexId = aivList st2.vertices

/-- Every vertex of the new region that is a stereocenter (bracket atom with a
chirality tag) has been marked and carries its bracket hydrogens as `"H"`
child vertices at the immediately following ids. -/
def StereoOk (st st2 : GraphState) : Prop :=
  ∀ j w b, st.vertices.length ≤ j → st2.vertices[j]? = some w →
    w.value.bracket = some b → b.chirality ≠ "" →
    w.value.isStereoCenter = true ∧
      ∀ i, i < b.hcount →
        ∃ hw, st2.vertices[j + 1 + i]? = some hw ∧ hw.value.element = "H" ∧
          hw.parentVertexId = some j ∧ (j + 1 + i) ∈ w.spanningTreeChildren

/-- The parent pointer stored at a vertex id of an assembled graph; the edge
relation of the spanning tree. -/
def parentOf (g : Graph) (j : Nat) : Option Nat :=
  (g.vertices[j]?).bind fun w => w.parentVertexId

/-- A vertex carrying a given ring membership list, for concrete evaluations. -/
def ringsVertex (k : Nat) (rs : List Nat) : Vertex :=
  { createVertex { Atom.make "C" "-" with rings := rs } with id := k }

/-- The two-atom parse tree `H(C)`: a root hydrogen carrying a carbon branch. -/
def c2Tree : ParseTreeNode :=
  .mk (.simple "H") "-" none [] [.mk (.simple "C") "-" (some "-") [] [] none] none

/-- The two-atom parse tree `C(=O)`: a root carbon with a double-bonded
oxygen branch. -/
def c3Tree : ParseTreeNode :=
  .mk (.simple "C") "-" none [] [.mk (.simple "O") "-" (some "=") [] [] none] none

/-- The one-atom parse tree of a chirality-tagged bracket carbon with two
bracket hydrogens. -/
def c4Tree : ParseTreeNode :=
  .mk (.bracket { element := "C", hcount := 2, chirality := "@", charge := 0
                  isotope := none, cls := none }) "-" none [] [] none

/-- Modelled from the spec: the aromaticity of a perceived ring — the `Ring`
class is absent from the given sources — is the conjunction of the member
atoms' aromatic flags, with no electron-counting heuristic. -/
def ringAromaticModel (members : List Atom) : Bool :=
  members.all fun a => a.isPartOfAromaticRing

/-! ### The permutation array of `σ` and orbit combinatorics -/

/-- The JavaScript array representation of a permutation of `{0, ..., n-1}`. -/
def permList {n : Nat} (σ : Equiv.Perm (Fin n)) : List Nat :=
  List.ofFn fun k => (σ k : Nat)

/-- The orbit of `x` under `σ` as a finite set; every cycle of a permutation of
`Fin n` has length at most `n`, so exponents below `n` suffice. -/
def orbitOf {n : Nat} (σ : Equiv.Perm (Fin n)) (x : Fin n) : Finset (Fin n) :=
  (Finset.range n).image fun k => (σ ^ k) x

/-- The element `x` is the least element of its orbit. -/
def isMinRep {n : Nat} (σ : Equiv.Perm (Fin n)) (x : Fin n) : Prop :=
  ∀ y ∈ orbitOf σ x, x ≤ y

instance isMinRep_dec {n : Nat} (σ : Equiv.Perm (Fin n)) (x : Fin n) :
    Decidable (isMinRep σ x) := by
  unfold isMinRep
  infer_instance

/-- The nontrivial minimal representatives: one per cycle of `σ`. -/
noncomputable def minReps {n : Nat} (σ : Equiv.Perm (Fin n)) : Finset (Fin n) :=
  Finset.univ.filter fun m => isMinRep σ m ∧ 2 ≤ Function.minimalPeriod ⇑σ m

/-- The number of even-length orbits, counted at their minimal representatives. -/
noncomputable def evenOrbitCount {n : Nat} (σ : Equiv.Perm (Fin n)) : Nat :=
  (Finset.univ.filter fun m : Fin n =>
    isMinRep σ m ∧ Function.minimalPeriod ⇑σ m % 2 = 0).card

/-- The visited array after the first `k` steps of a cycle traversal started at
`x`: positions `x, σ x, ..., σ^(k-1) x` are marked. -/
def markCycle {n : Nat} (σ : Equiv.Perm (Fin n)) (x : Fin n) (visited : List Bool) :
    Nat → List Bool
  | 0 => visited
  | k + 1 => (markCycle σ x visited k).set ((σ ^ k) x).val true

/-- On the literal hydrogen leaf the full `Graph._init` recursion reduces to
its vertex-creation stage: the stereo stage sees no bracket and the branch
loop and chain recursion see an empty tail.  This justifies modelling each
stereo-hydrogen insertion by `addStereoH`. -/
theorem initNode_stereoHLeaf (st : GraphState) (order pid : Nat) :
    initNode st stereoHLeaf order (some pid) true =
      (do let r ← addNodeVertex st stereoHLeaf (some pid) true
          pure r.1) := by
  simp only [initNode, stereoHLeaf, initStereo, initTail, initBranches, atomBracket]
  cases h : addNodeVertex st (ParseTreeNode.mk (AtomSpec.simple "H") "-" none [] [] none)
      (some pid) true with
  | error e => rfl
  | ok r => rfl

theorem VertexExt.refl (v : Vertex) : VertexExt v v :=
  ⟨[], [], [], by simp⟩

theorem VertexExt.trans {u v w : Vertex} (h1 : VertexExt u v) (h2 : VertexExt v w) :
    VertexExt u w := by
  obtain ⟨a1, a2, a3, rfl⟩ := h1
  obtain ⟨b1, b2, b3, rfl⟩ := h2
  exact ⟨a1 ++ b1, a2 ++ b2, a3 ++ b3, by simp⟩

theorem VertexExt.mem_neighbours {v w : Vertex} (h : VertexExt v w) {a : Nat}
    (ha : a ∈ v.neighbours) : a ∈ w.neighbours := by
  obtain ⟨n1, n2, n3, rfl⟩ := h
  simp [ha]

theorem VertexExt.mem_spanningTreeChildren {v w : Vertex} (h : VertexExt v w) {a : Nat}
    (ha : a ∈ v.spanningTreeChildren) : a ∈ w.spanningTreeChildren := by
  obtain ⟨n1, n2, n3, rfl⟩ := h
  simp [ha]

theorem VertexExt.id_eq {v w : Vertex} (h : VertexExt v w) : w.id = v.id := by
  obtain ⟨n1, n2, n3, rfl⟩ := h
  rfl

theorem VertexExt.parent_eq {v w : Vertex} (h : VertexExt v w) :
    w.parentVertexId = v.parentVertexId := by
  obtain ⟨n1, n2, n3, rfl⟩ := h
  rfl

theorem VertexExt.element_eq {v w : Vertex} (h : VertexExt v w) :
    w.value.element = v.value.element := by
  obtain ⟨n1, n2, n3, rfl⟩ := h
  rfl

theorem VertexExt.idx_eq {v w : Vertex} (h : VertexExt v w) : w.value.idx = v.value.idx := by
  obtain ⟨n1, n2, n3, rfl⟩ := h
  rfl

theorem VertexExt.bracket_eq {v w : Vertex} (h : VertexExt v w) :
    w.value.bracket = v.value.bracket := by
  obtain ⟨n1, n2, n3, rfl⟩ := h
  rfl

theorem VertexExt.isStereoCenter_eq {v w : Vertex} (h : VertexExt v w) :
    w.value.isStereoCenter = v.value.isStereoCenter := by
  obtain ⟨n1, n2, n3, rfl⟩ := h
  rfl

theorem modify_concat_self {α : Type} (l : List α) (v : α) (f : α → α) :
    (l ++ [v]).modify f l.length = l ++ [f v] := by
  rw [List.modify_eq_take_drop, List.take_left, List.drop_left]
  rfl

theorem modify_concat_lt {α : Type} (l : List α) (v : α) (f : α → α) (i : Nat)
    (h : i < l.length) :
    (l ++ [v]).modify f i = l.modify f i ++ [v] := by
  apply List.ext_getElem?
  intro n
  rw [List.getElem?_modify, List.getElem?_append, List.getElem?_append]
  simp only [List.length_modify]
  by_cases hlt : n < l.length
  · simp [hlt, List.getElem?_modify, List.getElem_modify]
  · simp only [hlt, if_neg, not_false_iff]
    have hin : ¬ i = n := by omega
    simp [hin, hlt]

theorem idxList_append (l1 l2 : List Vertex) :
    idxList (l1 ++ l2) = idxList l1 ++ idxList l2 :=
  List.filterMap_append l1 l2 _

theorem aivList_append (l1 l2 : List Vertex) :
    aivList (l1 ++ l2) = aivList l1 ++ aivList l2 := by
  simp [aivList]

theorem idxList_modify (l : List Vertex) (f : Vertex → Vertex) (i : Nat)
    (hf : ∀ v, (f v).value.idx = v.value.idx) :
    idxList (l.modify f i) = idxList l := by
  rw [List.modify_eq_take_drop]
  conv_rhs => rw [← List.take_append_drop i l]
  rw [idxList_append, idxList_append]
  congr 1
  cases hd : l.drop i with
  | nil => rfl
  | cons a t => simp [idxList, List.filterMap_cons, hf a]

theorem aivList_modify (l : List Vertex) (f : Vertex → Vertex) (i : Nat)
    (hf : ∀ v, (f v).value.idx = v.value.idx ∧ (f v).id = v.id) :
    aivList (l.modify f i) = aivList l := by
  rw [List.modify_eq_take_drop]
  conv_rhs => rw [← List.take_append_drop i l]
  rw [aivList_append, aivList_append]
  congr 1
  cases hd : l.drop i with
  | nil => rfl
  | cons a t =>
    simp only [List.modifyHead, aivList, List.filter_cons, (hf a).1]
    cases ha : a.value.idx <;> simp [ha, (hf a).2]

/-- The identity transition is a `BuildStep` with zero counts. -/
theorem BuildStep.id_step (st : GraphState) (pOpt : Option Nat) :
    BuildStep st pOpt 0 0 st := by
  refine ⟨by simp, ?_, ?_, ?_, ?_, ?_, by simp, by simp, fun h => h⟩
  · exact fun j v _ h => h
  · exact fun p _ v h => ⟨v, h, VertexExt.refl v⟩
  · intro j w hj hw
    obtain ⟨hlt, _⟩ := List.getElem?_eq_some_iff.mp hw
    omega
  · intro j w hj hw _
    obtain ⟨hlt, _⟩ := List.getElem?_eq_some_iff.mp hw
    omega
  · intro j w hj hw _
    obtain ⟨hlt, _⟩ := List.getElem?_eq_some_iff.mp hw
    omega

/-- Any vertex present before a `BuildStep` is still present afterwards and
at most extended. -/
theorem BuildStep.preserve {st st2 : GraphState} {pOpt : Option Nat} {c a : Nat}
    (h : BuildStep st pOpt c a st2) (j : Nat) (v : Vertex)
    (hv : st.vertices[j]? = some v) :
    ∃ w, st2.vertices[j]? = some w ∧ VertexExt v w := by
  by_cases hp : ∀ p, pOpt = some p → j ≠ p
  · exact ⟨v, h.frameOther j v hp hv, VertexExt.refl v⟩
  · push_neg at hp
    obtain ⟨p, hpo, rfl⟩ := hp
    exact h.frameParent j hpo v hv

/-- Composition of two `BuildStep`s.  The second step may report the same
parent as the first, or a parent that the first step freshly created. -/
theorem BuildStep.comp {st mid st2 : GraphState} {pOpt pOpt2 : Option Nat}
    {c1 a1 c2 a2 : Nat} (h1 : BuildStep st pOpt c1 a1 mid)
    (h2 : BuildStep mid pOpt2 c2 a2 st2)
    (hcompat : ∀ p2, pOpt2 = some p2 → pOpt = some p2 ∨ st.vertices.length ≤ p2)
    (hnone : pOpt2 = none → a2 = 0) :
    BuildStep st pOpt (c1 + c2) (a1 + a2) st2 := by
  have hlen : st.vertices.length ≤ mid.vertices.length := by
    rw [h1.lenEq]; omega
  refine ⟨?_, ?_, ?_, ?_, ?_, ?_, ?_, ?_, ?_⟩
  · rw [h2.lenEq, h1.lenEq]; omega
  · intro j v hj hv
    have hjlt : j < st.vertices.length := (List.getElem?_eq_some_iff.mp hv).1
    refine h2.frameOther j v ?_ (h1.frameOther j v hj hv)
    intro p2 hp2
    rcases hcompat p2 hp2 with hc | hc
    · exact hj p2 hc
    · omega
  · intro p hp v hv
    obtain ⟨w, hw, hext⟩ := h1.frameParent p hp v hv
    obtain ⟨u, hu, hext2⟩ := h2.preserve p w hw
    exact ⟨u, hu, hext.trans hext2⟩
  · intro j w hj hw
    by_cases hmid : j < mid.vertices.length
    · have hv := List.getElem?_eq_getElem hmid
      obtain ⟨w2, hw2, hext⟩ := h2.preserve j _ hv
      rw [hw] at hw2
      cases hw2
      rw [hext.id_eq]
      exact h1.newIds j _ hj hv
    · exact h2.newIds j w (by omega) hw
  · intro j w hj hw hextra
    by_cases hmid : j < mid.vertices.length
    · have hv := List.getElem?_eq_getElem hmid
      obtain ⟨q, qw, hq, hqlt, hqw, hmem1, hmem2⟩ :=
        h1.newParent j mid.vertices[j] hj hv hextra
      obtain ⟨w2, hw2, hext⟩ := h2.preserve j _ hv
      rw [hw] at hw2
      cases hw2
      obtain ⟨qw2, hqw2, hqext⟩ := h2.preserve q qw hqw
      exact ⟨q, qw2, by rw [hext.parent_eq]; exact hq, hqlt, hqw2,
        hqext.mem_spanningTreeChildren hmem1, hqext.mem_neighbours hmem2⟩
    · refine h2.newParent j w (by omega) hw ?_
      cases hpo2 : pOpt2 with
      | some p2 => exact Or.inr ⟨p2, rfl⟩
      | none =>
        obtain ⟨hlt, _⟩ := List.getElem?_eq_some_iff.mp hw
        have := hnone hpo2
        have := h2.lenEq
        omega
  · intro j w hj hw hextra
    by_cases hmid : j < mid.vertices.length
    · have hv := List.getElem?_eq_getElem hmid
      obtain ⟨w2, hw2, hext⟩ := h2.preserve j _ hv
      rw [hw] at hw2
      cases hw2
      rw [hext.idx_eq, hext.element_eq]
      exact h1.newIdxSome j mid.vertices[j] hj hv hextra
    · refine h2.newIdxSome j w (by omega) hw ?_
      cases hpo2 : pOpt2 with
      | some p2 => exact Or.inr ⟨p2, rfl⟩
      | none =>
        obtain ⟨hlt, _⟩ := List.getElem?_eq_some_iff.mp hw
        have := hnone hpo2
        have := h2.lenEq
        omega
  · rw [h2.idxListEq, h1.idxListEq, h1.atomIdxEq, List.append_assoc,
      List.range'_append_1, Nat.add_comm c2 c1]
  · rw [h2.atomIdxEq, h1.atomIdxEq]; omega
  · exact fun h => h2.aivEq (h1.aivEq h)

/-- A state transition that creates nothing preserves `StereoOk` trivially. -/
theorem StereoOk.of_lenEq {st st2 : GraphState}
    (h : st2.vertices.length = st.vertices.length) : StereoOk st st2 := by
  intro j w b hj hw
  obtain ⟨hlt, _⟩ := List.getElem?_eq_some_iff.mp hw
  omega

/-- Composition of `StereoOk` across a following `BuildStep`. -/
theorem StereoOk.comp_after {st mid st2 : GraphState} {pOpt2 : Option Nat} {c2 a2 : Nat}
    (h1 : StereoOk st mid) (h2 : StereoOk mid st2)
    (hb2 : BuildStep mid pOpt2 c2 a2 st2)
    (hlen : st.vertices.length ≤ mid.vertices.length) : StereoOk st st2 := by
  intro j w b hj hw hb hchir
  by_cases hmid : j < mid.vertices.length
  · have hv := List.getElem?_eq_getElem hmid
    obtain ⟨w2, hw2, hext⟩ := hb2.preserve j _ hv
    rw [hw] at hw2
    cases hw2
    rw [hext.bracket_eq] at hb
    obtain ⟨hmark, hkids⟩ := h1 j mid.vertices[j] b hj hv hb hchir
    refine ⟨by rw [hext.isStereoCenter_eq]; exact hmark, ?_⟩
    intro i hi
    obtain ⟨hw_, hhw, hel, hpar, hmem⟩ := hkids i hi
    obtain ⟨hw2_, hhw2, hext2⟩ := hb2.preserve (j + 1 + i) hw_ hhw
    exact ⟨hw2_, hhw2, by rw [hext2.element_eq]; exact hel,
      by rw [hext2.parent_eq]; exact hpar, hext.mem_spanningTreeChildren hmem⟩
  · exact h2 j w b (by omega) hw hb hchir

/-- Canonical form of the vertex-creation stage when no parent is handed in. -/
theorem addNodeVertex_none_eq (st : GraphState) (node : ParseTreeNode) (isBranch : Bool) :
    addNodeVertex st node none isBranch = .ok
      ({ vertices := st.vertices ++
            [{ createVertex (initAtom node true st.atomIdx) with id := st.vertices.length }]
         edges := st.edges
         atomIdxToVertexId := if nodeHasIdx node true then
             st.atomIdxToVertexId ++ [st.vertices.length]
           else st.atomIdxToVertexId
         atomIdx := if nodeHasIdx node true then st.atomIdx + 1 else st.atomIdx },
        st.vertices.length) := by
  by_cases h : nodeHasIdx node true <;>
    simp [addNodeVertex, addVertexModel, h, pure, Except.pure]

/-- Canonical form of the vertex-creation stage when the handed parent id is
in range: the parent gets the child recorded, the child vertex is appended
with the parent link, and the parent edge is appended. -/
theorem addNodeVertex_some_eq (st : GraphState) (node : ParseTreeNode) (isBranch : Bool)
    (pid : Nat) (hpid : pid < st.vertices.length) :
    addNodeVertex st node (some pid) isBranch = .ok
      ({ vertices :=
            st.vertices.modify (recordChild st.vertices.length (atomElement node)) pid ++
            [linkToParent pid (st.vertices[pid].value.element)
              { createVertex (initAtom node false st.atomIdx) with id := st.vertices.length }]
         edges := st.edges ++
            [{ Edge.setBondTypeLiteral
                { id := 0, sourceId := pid, targetId := st.vertices.length, weight := 1
                  bondType := "", isPartOfAromaticRing := false, center := false, wedge := "" }
                (if isBranch then orDash node.branchBond
                 else orDash (some (st.vertices[pid].value.bondType))) with
               id := st.edges.length }]
         atomIdxToVertexId := if nodeHasIdx node false then
             st.atomIdxToVertexId ++ [st.vertices.length]
           else st.atomIdxToVertexId
         atomIdx := if nodeHasIdx node false then st.atomIdx + 1 else st.atomIdx },
        st.vertices.length) := by
  have hlook : st.vertices[pid]? = some st.vertices[pid] := List.getElem?_eq_getElem hpid
  by_cases h : nodeHasIdx node false <;>
    simp only [addNodeVertex, addVertexModel, modifyVertexAt, addEdgeModel, hlook, h,
      Option.isNone_some, if_true, if_false, Bool.false_eq_true] <;>
    rw [modify_concat_self, modify_concat_lt _ _ _ _ hpid] <;>
    simp [initAtom, createVertex, pure, Except.pure]

theorem nodeHasIdx_eq (t : ParseTreeNode) (b : Bool) :
    nodeHasIdx t b = (atomElement t != "H" || (t.next.isNone && b)) := by
  cases t with
  | mk a bo bb rb bs nx => cases a <;> rfl

/-- The vertex-creation stage with a null parent id: success, a `BuildStep`,
and the fields of the fresh root vertex. -/
theorem addNodeVertex_none_spec (st : GraphState) (node : ParseTreeNode) (isBranch : Bool) :
    ∃ st2, addNodeVertex st node none isBranch = .ok (st2, st.vertices.length) ∧
      BuildStep st none (if nodeHasIdx node true then 1 else 0) 1 st2 ∧
      ∃ w, st2.vertices[st.vertices.length]? = some w ∧
        w.id = st.vertices.length ∧
        w.parentVertexId = none ∧
        w.value.element = atomElement node ∧
        w.value.bracket = atomBracket node ∧
        w.value.idx = (if nodeHasIdx node true then some st.atomIdx else none) ∧
        w.value.isStereoCenter = false := by
  refine ⟨_, addNodeVertex_none_eq st node isBranch, ?_, ?_⟩
  · constructor
    case lenEq => simp
    case frameOther =>
      intro j v _ hv
      have hj : j < st.vertices.length := (List.getElem?_eq_some_iff.mp hv).1
      simp only [List.getElem?_append, hj, if_pos, hv]
    case frameParent => intro p hp; simp at hp
    case newIds =>
      intro j w hj hw
      obtain ⟨hlt, _⟩ := List.getElem?_eq_some_iff.mp hw
      simp only [List.length_append, List.length_cons, List.length_nil] at hlt
      have hj2 : j = st.vertices.length := by omega
      subst hj2
      rw [List.getElem?_concat_length] at hw
      cases hw
      rfl
    case newParent =>
      intro j w hj hw hextra
      exfalso
      rcases hextra with h | ⟨p, hp⟩
      · obtain ⟨hlt, _⟩ := List.getElem?_eq_some_iff.mp hw
        simp only [List.length_append, List.length_cons, List.length_nil] at hlt
        omega
      · simp at hp
    case newIdxSome =>
      intro j w hj hw hextra
      exfalso
      rcases hextra with h | ⟨p, hp⟩
      · obtain ⟨hlt, _⟩ := List.getElem?_eq_some_iff.mp hw
        simp only [List.length_append, List.length_cons, List.length_nil] at hlt
        omega
      · simp at hp
    case idxListEq =>
      by_cases h : nodeHasIdx node true <;>
        simp [h, idxList_append, idxList, createVertex, initAtom, List.range']
    case atomIdxEq => by_cases h : nodeHasIdx node true <;> simp [h]
    case aivEq =>
      intro hin
      by_cases h : nodeHasIdx node true <;>
        simp [h, aivList_append, aivList, createVertex, initAtom, hin]
  · refine ⟨_, List.getElem?_concat_length _ _, ?_, ?_, ?_, ?_, ?_, ?_⟩ <;>
      simp [createVertex, initAtom]

/-- The vertex-creation stage with an in-range parent id: success, a
`BuildStep`, and the fields of the fresh linked vertex. -/
theorem addNodeVertex_some_spec (st : GraphState) (node : ParseTreeNode) (isBranch : Bool)
    (pid : Nat) (hpid : pid < st.vertices.length) :
    ∃ st2, addNodeVertex st node (some pid) isBranch = .ok (st2, st.vertices.length) ∧
      BuildStep st (some pid) (if nodeHasIdx node false then 1 else 0) 1 st2 ∧
      ∃ w, st2.vertices[st.vertices.length]? = some w ∧
        w.id = st.vertices.length ∧
        w.parentVertexId = some pid ∧
        w.value.element = atomElement node ∧
        w.value.bracket = atomBracket node ∧
        w.value.idx = (if nodeHasIdx node false then some st.atomIdx else none) ∧
        w.value.isStereoCenter = false := by
  have hmodlen : (st.vertices.modify (recordChild st.vertices.length (atomElement node)) pid).length
      = st.vertices.length := List.length_modify _ _ _
  have hlast : ∀ (x : Vertex) (l : List Vertex), l.length = st.vertices.length →
      (l ++ [x])[st.vertices.length]? = some x := by
    intro x l hl
    rw [← hl, List.getElem?_concat_length]
  refine ⟨_, addNodeVertex_some_eq st node isBranch pid hpid, ?_, ?_⟩
  · constructor
    case lenEq => simp
    case frameOther =>
      intro j v hj hv
      have hjlt : j < st.vertices.length := (List.getElem?_eq_some_iff.mp hv).1
      have hjp : ¬ (pid = j) := fun h => (hj pid rfl) h.symm
      simp only [List.getElem?_append, hmodlen, hjlt, if_pos, List.getElem?_modify]
      simp [hv, hjp]
    case frameParent =>
      intro p hp v hv
      obtain rfl : pid = p := Option.some_inj.mp hp
      have h2 := List.getElem?_eq_getElem hpid
      rw [hv] at h2
      obtain rfl : v = st.vertices[pid] := Option.some_inj.mp h2
      refine ⟨recordChild st.vertices.length (atomElement node) st.vertices[pid], ?_, ?_⟩
      · simp only [List.getElem?_append, hmodlen, hpid, if_pos, List.getElem?_modify]
        simp [List.getElem?_eq_getElem hpid]
      · exact ⟨[st.vertices.length], [st.vertices.length], [atomElement node], rfl⟩
    case newIds =>
      intro j w hj hw
      obtain ⟨hlt, _⟩ := List.getElem?_eq_some_iff.mp hw
      simp only [List.length_append, List.length_cons, List.length_nil, hmodlen] at hlt
      have hj2 : j = st.vertices.length := by omega
      subst hj2
      rw [hlast _ _ hmodlen] at hw
      cases hw
      simp [linkToParent, createVertex]
    case newParent =>
      intro j w hj hw _
      obtain ⟨hlt, _⟩ := List.getElem?_eq_some_iff.mp hw
      simp only [List.length_append, List.length_cons, List.length_nil, hmodlen] at hlt
      have hj2 : j = st.vertices.length := by omega
      subst hj2
      rw [hlast _ _ hmodlen] at hw
      cases hw
      refine ⟨pid, recordChild st.vertices.length (atomElement node) st.vertices[pid],
        by simp [linkToParent], hpid, ?_, ?_, ?_⟩
      · simp only [List.getElem?_append, hmodlen, hpid, if_pos, List.getElem?_modify]
        simp [List.getElem?_eq_getElem hpid]
      · simp [recordChild]
      · simp [recordChild]
    case newIdxSome =>
      intro j w hj hw _
      obtain ⟨hlt, _⟩ := List.getElem?_eq_some_iff.mp hw
      simp only [List.length_append, List.length_cons, List.length_nil, hmodlen] at hlt
      have hj2 : j = st.vertices.length := by omega
      subst hj2
      rw [hlast _ _ hmodlen] at hw
      cases hw
      simp only [linkToParent, createVertex, initAtom, nodeHasIdx_eq, Option.isNone_none,
        Bool.and_false, Bool.or_false]
      by_cases h : atomElement node != "H" <;> simp [h]
    case idxListEq =>
      rw [idxList_append, idxList_modify _ _ _ (by intro v; simp [recordChild])]
      by_cases h : nodeHasIdx node false <;>
        simp [h, idxList, linkToParent, createVertex, initAtom, List.range']
    case atomIdxEq => by_cases h : nodeHasIdx node false <;> simp [h]
    case aivEq =>
      intro hin
      rw [aivList_append, aivList_modify _ _ _ (by intro v; simp [recordChild])]
      by_cases h : nodeHasIdx node false <;>
        simp [h, aivList, linkToParent, createVertex, initAtom, hin]
  · refine ⟨_, hlast _ _ hmodlen, ?_, ?_, ?_, ?_, ?_, ?_⟩ <;>
      simp [linkToParent, createVertex, initAtom]

/-- Modifying a vertex of the new region in a way that only changes fields
`BuildStep` does not track (here: the stereocenter flag) preserves the step. -/
theorem BuildStep.modify_new {st st2 : GraphState} {pOpt : Option Nat} {c a : Nat}
    (h : BuildStep st pOpt c a st2) (k : Nat) (hk : st.vertices.length ≤ k)
    (f : Vertex → Vertex)
    (hf : ∀ v, (f v).id = v.id ∧ (f v).value.idx = v.value.idx ∧
      (f v).value.element = v.value.element ∧ (f v).parentVertexId = v.parentVertexId ∧
      (f v).neighbours = v.neighbours ∧ (f v).spanningTreeChildren = v.spanningTreeChildren) :
    BuildStep st pOpt c a (modifyVertexAt st2 k f) := by
  refine ⟨?_, ?_, ?_, ?_, ?_, ?_, ?_, ?_, ?_⟩
  · simp [modifyVertexAt, h.lenEq]
  · intro j v hj hv
    have hjlt : j < st.vertices.length := (List.getElem?_eq_some_iff.mp hv).1
    have hjk : ¬ (k = j) := by omega
    simp only [modifyVertexAt, List.getElem?_modify]
    simp [h.frameOther j v hj hv, hjk]
  · intro p hp v hv
    have hplt : p < st.vertices.length := (List.getElem?_eq_some_iff.mp hv).1
    have hpk : ¬ (k = p) := by omega
    obtain ⟨w, hw, hext⟩ := h.frameParent p hp v hv
    refine ⟨w, ?_, hext⟩
    simp only [modifyVertexAt, List.getElem?_modify]
    simp [hw, hpk]
  · intro j w hj hw
    simp only [modifyVertexAt, List.getElem?_modify] at hw
    cases hjj : st2.vertices[j]? with
    | none => rw [hjj] at hw; simp at hw
    | some v =>
      rw [hjj] at hw
      by_cases hkj : k = j <;> simp [hkj] at hw <;> rw [← hw]
      · rw [(hf v).1]
        exact h.newIds j v hj hjj
      · exact h.newIds j v hj hjj
  · intro j w hj hw hextra
    simp only [modifyVertexAt, List.getElem?_modify] at hw
    cases hjj : st2.vertices[j]? with
    | none => rw [hjj] at hw; simp at hw
    | some v =>
      rw [hjj] at hw
      obtain ⟨q, qw, hq, hqlt, hqw, hm1, hm2⟩ := h.newParent j v hj hjj hextra
      have hpar : w.parentVertexId = some q := by
        by_cases hkj : k = j
        · simp [hkj] at hw
          rw [← hw, (hf v).2.2.2.1]
          exact hq
        · simp [hkj] at hw
          rw [← hw]
          exact hq
      refine ⟨q, if k = q then f qw else qw, hpar, hqlt, ?_, ?_, ?_⟩
      · simp only [modifyVertexAt, List.getElem?_modify]
        by_cases hkq : k = q <;> simp [hkq, hqw]
      · by_cases hkq : k = q <;> simp [hkq, (hf qw).2.2.2.2.2, hm1]
      · by_cases hkq : k = q <;> simp [hkq, (hf qw).2.2.2.2.1, hm2]
  · intro j w hj hw hextra
    simp only [modifyVertexAt, List.getElem?_modify] at hw
    cases hjj : st2.vertices[j]? with
    | none => rw [hjj] at hw; simp at hw
    | some v =>
      rw [hjj] at hw
      by_cases hkj : k = j <;> simp [hkj] at hw <;> rw [← hw]
      · rw [(hf v).2.1, (hf v).2.2.1]
        exact h.newIdxSome j v hj hjj hextra
      · exact h.newIdxSome j v hj hjj hextra
  · simp only [modifyVertexAt]
    rw [idxList_modify _ _ _ (fun v => (hf v).2.1)]
    exact h.idxListEq
  · exact h.atomIdxEq
  · intro hin
    simp only [modifyVertexAt]
    rw [aivList_modify _ _ _ (fun v => ⟨(hf v).2.1, (hf v).1⟩)]
    exact h.aivEq hin

/-- One stereo-hydrogen insertion: success for an in-range parent, a
`BuildStep` that adds one vertex and no heavy-atom index, and the hydrogen
vertex fields. -/
theorem addStereoH_spec (st : GraphState) (pvid : Nat) (hp : pvid < st.vertices.length) :
    ∃ st2, addStereoH st pvid = .ok st2 ∧
      BuildStep st (some pvid) 0 1 st2 ∧
      ∃ w, st2.vertices[st.vertices.length]? = some w ∧
        w.value.element = "H" ∧ w.value.bracket = none ∧ w.parentVertexId = some pvid := by
  obtain ⟨st2, hrun, hstep, w, hw, hid, hpar, hel, hbr, hidx, hsc⟩ :=
    addNodeVertex_some_spec st stereoHLeaf true pvid hp
  have hhas : nodeHasIdx stereoHLeaf false = false := by rfl
  rw [hhas] at hstep
  refine ⟨st2, ?_, by simpa using hstep, w, hw, ?_, ?_, hpar⟩
  · rw [addStereoH, hrun]
    rfl
  · rw [hel]; rfl
  · rw [hbr]; rfl

/-- The stereo-hydrogen loop: `count` hydrogens are appended, each an `"H"`
vertex without bracket whose parent is the stereocenter. -/
theorem addStereoHs_spec (st : GraphState) (count pvid : Nat)
    (hp : pvid < st.vertices.length) :
    ∃ st2, addStereoHs st count pvid = .ok st2 ∧
      BuildStep st (some pvid) 0 count st2 ∧
      ∀ j w, st.vertices.length ≤ j → st2.vertices[j]? = some w →
        w.value.element = "H" ∧ w.value.bracket = none ∧ w.parentVertexId = some pvid := by
  induction count generalizing st with
  | zero =>
    refine ⟨st, rfl, BuildStep.id_step st _, ?_⟩
    intro j w hj hw
    obtain ⟨hlt, _⟩ := List.getElem?_eq_some_iff.mp hw
    omega
  | succ k ih =>
    obtain ⟨mid, hrun1, hstep1, w1, hw1, hel1, hbr1, hpar1⟩ := addStereoH_spec st pvid hp
    have hmidlen : mid.vertices.length = st.vertices.length + 1 := hstep1.lenEq
    obtain ⟨st2, hrun2, hstep2, hfacts2⟩ := ih mid (by omega)
    refine ⟨st2, ?_, ?_, ?_⟩
    · rw [addStereoHs, hrun1]
      simpa using hrun2
    · have h3 := hstep1.comp hstep2 (fun p2 hp2 => Or.inl hp2) (by simp)
      rw [Nat.add_comm 1 k] at h3
      simpa using h3
    · intro j w hj hw
      by_cases hmid : j < mid.vertices.length
      · have hj1 : j = st.vertices.length := by omega
        subst hj1
        obtain ⟨w2, hw2, hext⟩ := hstep2.preserve _ w1 hw1
        rw [hw] at hw2
        cases hw2
        exact ⟨by rw [hext.element_eq]; exact hel1,
          by rw [hext.bracket_eq]; exact hbr1,
          by rw [hext.parent_eq]; exact hpar1⟩
      · exact hfacts2 j w (by omega) hw

theorem numAtoms_mk (a : AtomSpec) (bo : String) (bb : Option String) (rb : List Ringbond)
    (bs : List ParseTreeNode) (nxo : Option ParseTreeNode) :
    numAtoms (.mk a bo bb rb bs nxo) = 1 + numAtomsList bs +
      (match nxo with
       | some nx => numAtoms nx
       | none => 0) := by
  rw [numAtoms.eq_def]

theorem numHeavy_mk (a : AtomSpec) (bo : String) (bb : Option String) (rb : List Ringbond)
    (bs : List ParseTreeNode) (nxo : Option ParseTreeNode) (isRoot : Bool) :
    numHeavy (.mk a bo bb rb bs nxo) isRoot =
      (if nodeHasIdx (.mk a bo bb rb bs nxo) isRoot then 1 else 0) + numHeavyList bs +
      (match nxo with
       | some nx => numHeavy nx false
       | none => 0) := by
  rw [numHeavy.eq_def]

theorem numStereoH_mk (a : AtomSpec) (bo : String) (bb : Option String) (rb : List Ringbond)
    (bs : List ParseTreeNode) (nxo : Option ParseTreeNode) :
    numStereoH (.mk a bo bb rb bs nxo) =
      (match atomBracket (.mk a bo bb rb bs nxo) with
       | some b => if b.chirality != "" then b.hcount else 0
       | none => 0) + numStereoHList bs +
      (match nxo with
       | some nx => numStereoH nx
       | none => 0) := by
  cases a <;> rw [numStereoH.eq_def] <;> simp [atomBracket, ParseTreeNode.atom]

mutual

/-- Master invariant of `Graph._init`: for an in-range parent id the call
succeeds, performs a `BuildStep` whose counts are the heavy-atom and
atom-plus-stereo-hydrogen counts of the subtree, establishes the
stereocenter bookkeeping, and the vertex created for the node itself carries
the handed parent id, the node element and the assigned index. -/
theorem initNode_spec (st : GraphState) (node : ParseTreeNode) (order : Nat)
    (pOpt : Option Nat) (isBranch : Bool)
    (hp : ∀ p, pOpt = some p → p < st.vertices.length) :
    ∃ st2, initNode st node order pOpt isBranch = .ok st2 ∧
      BuildStep st pOpt (numHeavy node pOpt.isNone) (numAtoms node + numStereoH node) st2 ∧
      StereoOk st st2 ∧
      ∃ w, st2.vertices[st.vertices.length]? = some w ∧
        w.parentVertexId = pOpt ∧
        w.value.element = atomElement node ∧
        w.value.bracket = atomBracket node ∧
        w.value.idx = (if nodeHasIdx node pOpt.isNone then some st.atomIdx else none) := by
  obtain ⟨atomSpec, bond, bb, rb, bs, nxo⟩ := node
  obtain ⟨stA, hrunA, hstepA, wA, hwA, hidA, hparA, helA, hbrA, hidxA, hscA⟩ :
      ∃ stA, addNodeVertex st (ParseTreeNode.mk atomSpec bond bb rb bs nxo) pOpt isBranch
          = .ok (stA, st.vertices.length) ∧
        BuildStep st pOpt
          (if nodeHasIdx (ParseTreeNode.mk atomSpec bond bb rb bs nxo) pOpt.isNone then 1 else 0)
          1 stA ∧
        ∃ w, stA.vertices[st.vertices.length]? = some w ∧
          w.id = st.vertices.length ∧
          w.parentVertexId = pOpt ∧
          w.value.element = atomElement (ParseTreeNode.mk atomSpec bond bb rb bs nxo) ∧
          w.value.bracket = atomBracket (ParseTreeNode.mk atomSpec bond bb rb bs nxo) ∧
          w.value.idx = (if nodeHasIdx (ParseTreeNode.mk atomSpec bond bb rb bs nxo) pOpt.isNone
            then some st.atomIdx else none) ∧
          w.value.isStereoCenter = false := by
    cases pOpt with
    | none => simpa using addNodeVertex_none_spec st _ isBranch
    | some pid => simpa using addNodeVertex_some_spec st _ isBranch pid (hp pid rfl)
  have hlenA : stA.vertices.length = st.vertices.length + 1 := hstepA.lenEq
  obtain ⟨stB, hrunB, hstepB, hSOkB, wB, hwB, hparB, helB, hbrB, hidxB⟩ :
      ∃ stB, initStereo stA st.vertices.length
          (atomBracket (ParseTreeNode.mk atomSpec bond bb rb bs nxo)) = Except.ok stB ∧
        BuildStep st pOpt
          (if nodeHasIdx (ParseTreeNode.mk atomSpec bond bb rb bs nxo) pOpt.isNone then 1 else 0)
          (1 + (match atomBracket (ParseTreeNode.mk atomSpec bond bb rb bs nxo) with
            | some b => if b.chirality != "" then b.hcount else 0
            | none => 0)) stB ∧
        StereoOk st stB ∧
        ∃ w, stB.vertices[st.vertices.length]? = some w ∧
          w.parentVertexId = pOpt ∧
          w.value.element = atomElement (ParseTreeNode.mk atomSpec bond bb rb bs nxo) ∧
          w.value.bracket = atomBracket (ParseTreeNode.mk atomSpec bond bb rb bs nxo) ∧
          w.value.idx = (if nodeHasIdx (ParseTreeNode.mk atomSpec bond bb rb bs nxo) pOpt.isNone
            then some st.atomIdx else none) := by
    cases hbrk : atomBracket (ParseTreeNode.mk atomSpec bond bb rb bs nxo) with
    | none =>
      refine ⟨stA, by simp [initStereo, pure, Except.pure], by simpa using hstepA, ?_,
        wA, hwA, hparA, helA, hbrA.trans hbrk, hidxA⟩
      intro j w b0 hj hwj hbr0 hch0
      exfalso
      obtain ⟨hlt, _⟩ := List.getElem?_eq_some_iff.mp hwj
      have hj2 : j = st.vertices.length := by omega
      subst hj2
      rw [hwA] at hwj
      cases hwj
      rw [hbrk] at hbrA
      rw [hbrA] at hbr0
      simp at hbr0
    | some b =>
      by_cases hch : b.chirality != ""
      · have hbrA2 : wA.value.bracket = some b := by rw [hbrA, hbrk]
        have hwM : (modifyVertexAt stA st.vertices.length (fun v =>
            { v with value := { v.value with isStereoCenter := true } })).vertices[st.vertices.length]?
            = some { wA with value := { wA.value with isStereoCenter := true } } := by
          simp [modifyVertexAt, List.getElem?_modify, hwA]
        have hstepM := hstepA.modify_new st.vertices.length (le_refl _)
          (fun v => { v with value := { v.value with isStereoCenter := true } })
          (fun v => ⟨rfl, rfl, rfl, rfl, rfl, rfl⟩)
        have hlenM : (modifyVertexAt stA st.vertices.length (fun v =>
            { v with value := { v.value with isStereoCenter := true } })).vertices.length
            = st.vertices.length + 1 := by
          simpa [modifyVertexAt] using hlenA
        obtain ⟨stB, hrunB, hstepB2, hHfacts⟩ := addStereoHs_spec
          (modifyVertexAt stA st.vertices.length (fun v =>
            { v with value := { v.value with isStereoCenter := true } }))
          b.hcount st.vertices.length (by omega)
        have hlenB : stB.vertices.length = st.vertices.length + 1 + b.hcount := by
          rw [hstepB2.lenEq, hlenM]
        obtain ⟨wB, hwB, hextB⟩ := hstepB2.preserve _ _ hwM
        refine ⟨stB, by simp only [initStereo, hch, if_pos]; exact hrunB, ?_, ?_,
          wB, hwB, ?_, ?_, ?_, ?_⟩
        · have h3 := hstepM.comp hstepB2
            (fun p2 hp2 => Or.inr (by cases hp2; exact le_refl _)) (by simp)
          simpa [hch] using h3
        · intro j w b0 hj hwj hbr0 hch0
          by_cases hjn : j = st.vertices.length
          · subst hjn
            rw [hwj] at hwB
            have hww : w = wB := Option.some_inj.mp hwB
            subst hww
            have hbrw : w.value.bracket = some b := by
              rw [hextB.bracket_eq]
              exact hbrA2
            rw [hbrw] at hbr0
            obtain rfl : b = b0 := Option.some_inj.mp hbr0
            refine ⟨by rw [hextB.isStereoCenter_eq], ?_⟩
            intro i hi
            have hidxlt : st.vertices.length + 1 + i < stB.vertices.length := by omega
            have hhw := List.getElem?_eq_getElem hidxlt
            obtain ⟨helH, hbrH, hparH⟩ := hHfacts _ _ (by omega) hhw
            obtain ⟨q, qw, hq, hqlt, hqw, hm1, hm2⟩ := hstepB2.newParent _ _
              (by omega) hhw (Or.inr ⟨_, rfl⟩)
            rw [hparH] at hq
            obtain rfl : st.vertices.length = q := Option.some_inj.mp hq
            rw [hwj] at hqw
            obtain rfl : qw = w := (Option.some_inj.mp hqw).symm
            exact ⟨_, hhw, helH, hparH, hm1⟩
          · exfalso
            obtain ⟨_, hbrH, _⟩ := hHfacts j w (by omega) hwj
            rw [hbrH] at hbr0
            cases hbr0
        · rw [hextB.parent_eq]
          exact hparA
        · rw [hextB.element_eq]
          exact helA
        · rw [hextB.bracket_eq]
          simpa using hbrA2
        · rw [hextB.idx_eq]
          exact hidxA
      · refine ⟨stA, by simp [initStereo, hch, pure, Except.pure],
          by simpa [hch] using hstepA, ?_, wA, hwA, hparA, helA, hbrA.trans hbrk, hidxA⟩
        intro j w b0 hj hwj hbr0 hch0
        exfalso
        obtain ⟨hlt, _⟩ := List.getElem?_eq_some_iff.mp hwj
        have hj2 : j = st.vertices.length := by omega
        subst hj2
        rw [hwA] at hwj
        cases hwj
        rw [hbrk] at hbrA
        rw [hbrA] at hbr0
        obtain rfl : b = b0 := Option.some_inj.mp hbr0
        simp at hch
        exact hch0 hch
  have hlenB2 : st.vertices.length < stB.vertices.length := by
    have := hstepB.lenEq
    omega
  obtain ⟨stT, hrunT, hstepT, hSOkT⟩ := initTail_spec stB bs
    (rb.length + 1 +
      (match atomBracket (ParseTreeNode.mk atomSpec bond bb rb bs nxo) with
       | some b => b.hcount
       | none => 0))
    st.vertices.length
    (bs.length + (rb.length + 1 +
      (match atomBracket (ParseTreeNode.mk atomSpec bond bb rb bs nxo) with
       | some b => b.hcount
       | none => 0)))
    nxo hlenB2
  refine ⟨stT, ?_, ?_, hSOkB.comp_after hSOkT hstepT (by omega), ?_⟩
  · simp only [initNode]
    rw [hrunA]
    simp only [bind, Except.bind]
    rw [hrunB]
    exact hrunT
  · have h4 := hstepB.comp hstepT (fun p2 hp2 => Or.inr (by cases hp2; omega)) (by simp)
    rw [numHeavy_mk, numAtoms_mk, numStereoH_mk]
    have hc1 : (if nodeHasIdx (ParseTreeNode.mk atomSpec bond bb rb bs nxo) pOpt.isNone
        then 1 else 0) + (numHeavyList bs +
        (match nxo with
         | some nx => numHeavy nx false
         | none => 0)) =
        (if nodeHasIdx (ParseTreeNode.mk atomSpec bond bb rb bs nxo) pOpt.isNone
        then 1 else 0) + numHeavyList bs +
        (match nxo with
         | some nx => numHeavy nx false
         | none => 0) := by omega
    have hc2 : 1 + (match atomBracket (ParseTreeNode.mk atomSpec bond bb rb bs nxo) with
          | some b => if b.chirality != "" then b.hcount else 0
          | none => 0) +
        (numAtomsList bs + numStereoHList bs +
          (match nxo with
           | some nx => numAtoms nx + numStereoH nx
           | none => 0)) =
        1 + numAtomsList bs +
          (match nxo with
           | some nx => numAtoms nx
           | none => 0) +
        ((match atomBracket (ParseTreeNode.mk atomSpec bond bb rb bs nxo) with
          | some b => if b.chirality != "" then b.hcount else 0
          | none => 0) + numStereoHList bs +
          (match nxo with
           | some nx => numStereoH nx
           | none => 0)) := by
      cases nxo <;> simp <;> omega
    rw [hc1] at h4
    rw [hc2] at h4
    exact h4
  · obtain ⟨w2, hw2, hext⟩ := hstepT.preserve _ _ hwB
    exact ⟨w2, hw2, by rw [hext.parent_eq]; exact hparB,
      by rw [hext.element_eq]; exact helB, by rw [hext.bracket_eq]; exact hbrB,
      by rw [hext.idx_eq]; exact hidxB⟩
termination_by sizeOf node
decreasing_by
all_goals simp
all_goals omega

/-- Master invariant of the tail stage (branch loop plus chain recursion). -/
theorem initTail_spec (stB : GraphState) (bs : List ParseTreeNode) (off vid ord2 : Nat)
    (nxo : Option ParseTreeNode) (hvid : vid < stB.vertices.length) :
    ∃ st2, initTail stB bs off vid ord2 nxo = .ok st2 ∧
      BuildStep stB (some vid)
        (numHeavyList bs +
          (match nxo with
           | some nx => numHeavy nx false
           | none => 0))
        (numAtomsList bs + numStereoHList bs +
          (match nxo with
           | some nx => numAtoms nx + numStereoH nx
           | none => 0)) st2 ∧
      StereoOk stB st2 := by
  obtain ⟨stC, hrunC, hstepC, hSOkC⟩ := initBranches_spec stB bs off vid hvid
  have hlenC : stB.vertices.length ≤ stC.vertices.length := by
    have := hstepC.lenEq
    omega
  cases nxo with
  | none =>
    refine ⟨stC, ?_, ?_, hSOkC⟩
    · simp only [initTail]
      rw [hrunC]
      rfl
    · simpa using hstepC
  | some nx =>
    obtain ⟨stD, hrunD, hstepD, hSOkD, _⟩ := initNode_spec stC nx ord2 (some vid) false
      (by intro p hp2; cases hp2; omega)
    refine ⟨stD, ?_, ?_, hSOkC.comp_after hSOkD hstepD hlenC⟩
    · simp only [initTail]
      rw [hrunC]
      simpa using hrunD
    · have h3 := hstepC.comp hstepD (fun p2 hp2 => Or.inl hp2) (by simp)
      simpa using h3
termination_by sizeOf bs + sizeOf nxo
decreasing_by
all_goals try (cases nxo <;> simp <;> omega)
all_goals simp
all_goals omega

/-- Master invariant of the branch loop of `Graph._init`. -/
theorem initBranches_spec (st : GraphState) (bs : List ParseTreeNode) (i vid : Nat)
    (hvid : vid < st.vertices.length) :
    ∃ st2, initBranches st bs i vid = .ok st2 ∧
      BuildStep st (some vid) (numHeavyList bs) (numAtomsList bs + numStereoHList bs) st2 ∧
      StereoOk st st2 := by
  match bs with
  | [] =>
    refine ⟨st, ?_, ?_, StereoOk.of_lenEq rfl⟩
    · simp only [initBranches]
      rfl
    · simpa [numHeavyList, numAtomsList, numStereoHList] using BuildStep.id_step st (some vid)
  | b :: rest =>
    obtain ⟨mid, hrun1, hstep1, hstereo1, _⟩ := initNode_spec st b i (some vid) true
      (by intro p hp2; cases hp2; exact hvid)
    have hmidlen : st.vertices.length ≤ mid.vertices.length := by
      have := hstep1.lenEq
      omega
    obtain ⟨st2, hrun2, hstep2, hstereo2⟩ := initBranches_spec mid rest (i + 1) vid
      (by omega)
    refine ⟨st2, ?_, ?_, hstereo1.comp_after hstereo2 hstep2 hmidlen⟩
    · simp only [initBranches]
      rw [hrun1]
      simpa using hrun2
    · have h3 := hstep1.comp hstep2 (fun p2 hp2 => Or.inl hp2) (by simp)
      simp only [Option.isNone_some] at h3
      have hc : numHeavy b false + numHeavyList rest = numHeavyList (b :: rest) := by
        simp [numHeavyList]
      have ha : numAtoms b + numStereoH b + (numAtomsList rest + numStereoHList rest)
          = numAtomsList (b :: rest) + numStereoHList (b :: rest) := by
        simp only [numAtomsList, numStereoHList]
        omega
      rw [hc, ha] at h3
      exact h3
termination_by sizeOf bs
decreasing_by
all_goals simp only [List.cons.sizeOf_spec]
all_goals omega

end

/-- The `Graph` constructor run from the fresh state: it succeeds, and the
assembled graph satisfies the vertex-count, heavy-index-density, id-density,
spanning-tree and stereocenter facts accumulated by the master invariant. -/
theorem Graph.buildE_facts (t : ParseTreeNode) (iso : Bool) :
    ∃ g : Graph, Graph.buildE t iso = .ok g ∧
      g.vertices.length = numAtoms t + numStereoH t ∧
      idxList g.vertices = List.range' 0 (numHeavy t true) ∧
      g.atomIdxToVertexId = aivList g.vertices ∧
      (∀ (j : Nat) (w : Vertex), g.vertices[j]? = some w → w.id = j) ∧
      (∀ (j : Nat) (w : Vertex), g.vertices[j]? = some w → 0 < j →
        ∃ q qw, w.parentVertexId = some q ∧ q < j ∧ g.vertices[q]? = some qw ∧
          j ∈ qw.spanningTreeChildren ∧ j ∈ qw.neighbours) ∧
      (∀ (j : Nat) (w : Vertex), g.vertices[j]? = some w → 0 < j →
        w.value.idx.isSome = (w.value.element != "H")) ∧
      (∃ w : Vertex, g.vertices[0]? = some w ∧ w.parentVertexId = none ∧
        w.value.element = atomElement t ∧ w.value.bracket = atomBracket t ∧
        w.value.idx = (if nodeHasIdx t true then some 0 else none)) ∧
      (∀ (j : Nat) (w : Vertex) (b : Bracket), g.vertices[j]? = some w →
        w.value.bracket = some b →
        b.chirality ≠ "" →
        w.value.isStereoCenter = true ∧
        ∀ i, i < b.hcount → ∃ hw, g.vertices[j + 1 + i]? = some hw ∧
          hw.value.element = "H" ∧ hw.parentVertexId = some j ∧
          (j + 1 + i) ∈ w.spanningTreeChildren) := by
  obtain ⟨st2, hrun, hstep, hSOk, w0, hw0, hpar0, hel0, hbr0, hidx0⟩ :=
    initNode_spec { vertices := [], edges := [], atomIdxToVertexId := [], atomIdx := 0 }
      t 0 none false (by intro p hp; cases hp)
  simp only [Option.isNone_none] at hstep hidx0
  refine ⟨{ vertices := st2.vertices, edges := st2.edges
            atomIdxToVertexId := st2.atomIdxToVertexId, isomeric := iso }, ?_, ?_, ?_, ?_,
    ?_, ?_, ?_, ?_, ?_⟩
  · simp only [Graph.buildE, hrun]
  · have := hstep.lenEq
    simpa using this
  · have := hstep.idxListEq
    simpa [idxList] using this
  · exact hstep.aivEq rfl
  · exact fun j w hw => hstep.newIds j w (Nat.zero_le j) hw
  · exact fun j w hw hj => hstep.newParent j w (Nat.zero_le j) hw (Or.inl (by simpa using hj))
  · exact fun j w hw hj => hstep.newIdxSome j w (Nat.zero_le j) hw (Or.inl (by simpa using hj))
  · exact ⟨w0, hw0, hpar0, hel0, hbr0, hidx0⟩
  · exact fun j w b hw hb hch => hSOk j w b (Nat.zero_le j) hw hb hch

/-- The successful `Graph.build` result coincides with the `Graph.buildE` run. -/
theorem Graph.build_eq_of_buildE (t : ParseTreeNode) (iso : Bool) (g : Graph)
    (h : Graph.buildE t iso = .ok g) : Graph.build t iso = g := by
  simp only [Graph.build, h]

/-- The facts of `Graph.buildE_facts` restated for the total wrapper `Graph.build`. -/
theorem Graph.build_facts (t : ParseTreeNode) (iso : Bool) :
    (Graph.build t iso).vertices.length = numAtoms t + numStereoH t ∧
      idxList (Graph.build t iso).vertices = List.range' 0 (numHeavy t true) ∧
      (Graph.build t iso).atomIdxToVertexId = aivList (Graph.build t iso).vertices ∧
      (∀ (j : Nat) (w : Vertex), (Graph.build t iso).vertices[j]? = some w → w.id = j) ∧
      (∀ (j : Nat) (w : Vertex), (Graph.build t iso).vertices[j]? = some w → 0 < j →
        ∃ q qw, w.parentVertexId = some q ∧ q < j ∧
          (Graph.build t iso).vertices[q]? = some qw ∧
          j ∈ qw.spanningTreeChildren ∧ j ∈ qw.neighbours) ∧
      (∀ (j : Nat) (w : Vertex), (Graph.build t iso).vertices[j]? = some w → 0 < j →
        w.value.idx.isSome = (w.value.element != "H")) ∧
      (∃ w : Vertex, (Graph.build t iso).vertices[0]? = some w ∧ w.parentVertexId = none ∧
        w.value.element = atomElement t ∧ w.value.bracket = atomBracket t ∧
        w.value.idx = (if nodeHasIdx t true then some 0 else none)) ∧
      (∀ (j : Nat) (w : Vertex) (b : Bracket), (Graph.build t iso).vertices[j]? = some w →
        w.value.bracket = some b →
        b.chirality ≠ "" →
        w.value.isStereoCenter = true ∧
        ∀ i, i < b.hcount → ∃ hw, (Graph.build t iso).vertices[j + 1 + i]? = some hw ∧
          hw.value.element = "H" ∧ hw.parentVertexId = some j ∧
          (j + 1 + i) ∈ w.spanningTreeChildren) := by
  obtain ⟨g, hg, facts⟩ := Graph.buildE_facts t iso
  rw [Graph.build_eq_of_buildE t iso g hg]
  exact facts

/-- Every vertex id of a built graph reaches the root id `0` along parent
pointers: the spanning tree is rooted at vertex `0`. -/
theorem Graph.build_rooted (t : ParseTreeNode) (iso : Bool) :
    ∀ j, j < (Graph.build t iso).vertices.length →
      Relation.ReflTransGen (fun a b => parentOf (Graph.build t iso) a = some b) j 0 := by
  intro j
  induction j using Nat.strong_induction_on with
  | _ j ih =>
    intro hj
    rcases Nat.eq_zero_or_pos j with rfl | hpos
    · exact .refl
    · have hw : (Graph.build t iso).vertices[j]? = some (Graph.build t iso).vertices[j] :=
        List.getElem?_eq_getElem hj
    
      obtain ⟨q, qw, hq, hqlt, hqw, _, _⟩ :=
        (Graph.build_facts t iso).2.2.2.2.1 j _ hw hpos
      exact Relation.ReflTransGen.head (by simp [parentOf, hw, hq]) (ih q (by omega) (by omega))

/-- Membership in the inner loop of the `RingConnection` constructor: scanning
`second` against a fixed member `c` of the first ring inserts `c` exactly when
`second` contains it. -/
theorem mem_sharedVertices_inner (second : List Nat) (acc : Finset Nat) (c x : Nat) :
    (x ∈ second.foldl (fun acc2 d => if c = d then insert c acc2 else acc2) acc) ↔
      x ∈ acc ∨ (x = c ∧ c ∈ second) := by
  induction second generalizing acc with
  | nil => simp
  | cons d rest ih =>
    simp only [List.foldl_cons]
    by_cases hcd : c = d
    · rw [if_pos hcd, ih]
      simp only [Finset.mem_insert, List.mem_cons]
      constructor
      · rintro ((rfl | h) | ⟨rfl, h⟩)
        · exact Or.inr ⟨rfl, Or.inl hcd⟩
        · exact Or.inl h
        · exact Or.inr ⟨rfl, Or.inr h⟩
      · rintro (h | ⟨rfl, h⟩)
        · exact Or.inl (Or.inr h)
        · exact Or.inl (Or.inl rfl)
    · rw [if_neg hcd, ih]
      simp only [List.mem_cons]
      constructor
      · rintro (h | ⟨rfl, h⟩)
        · exact Or.inl h
        · exact Or.inr ⟨rfl, Or.inr h⟩
      · rintro (h | ⟨rfl, h2⟩)
        · exact Or.inl h
        · rcases h2 with h2 | h2
          · exact absurd h2 hcd
          · exact Or.inr ⟨rfl, h2⟩

/-- The double loop of the `RingConnection` constructor collects exactly the
vertex ids shared by the two member lists. -/
theorem sharedVerticesLoop_eq (first second : List Nat) :
    sharedVerticesLoop first second = first.toFinset ∩ second.toFinset := by
  have h : ∀ acc : Finset Nat, ∀ x : Nat,
      (x ∈ first.foldl
        (fun acc c => second.foldl (fun acc2 d => if c = d then insert c acc2 else acc2) acc)
        acc) ↔ x ∈ acc ∨ (x ∈ first ∧ x ∈ second) := by
    induction first with
    | nil => simp
    | cons c rest ih =>
      intro acc x
      simp only [List.foldl_cons]
      rw [ih, mem_sharedVertices_inner]
      simp only [List.mem_cons]
      constructor
      · rintro ((h | ⟨rfl, h⟩) | ⟨h1, h2⟩)
        · exact Or.inl h
        · exact Or.inr ⟨Or.inl rfl, h⟩
        · exact Or.inr ⟨Or.inr h1, h2⟩
      · rintro (h | ⟨(rfl | h1), h2⟩)
        · exact Or.inl (Or.inl h)
        · exact Or.inl (Or.inr ⟨rfl, h2⟩)
        · exact Or.inr ⟨h1, h2⟩
  ext x
  rw [sharedVerticesLoop, h]
  simp

/-- C1: `RingConnection.isBridge` classifies a connection of two perceived
rings as a bridge exactly when the shared-vertex set (the members the two
rings have in common) has more than two elements, or some shared vertex
belongs to more than two rings; every other connection yields `false`. -/
theorem ringConnection_isBridge_iff (r1 r2 : Ring) (vertices : List Vertex) :
    (RingConnection.make r1 r2).isBridge vertices = true ↔
      (2 < (r1.members.toFinset ∩ r2.members.toFinset).card ∨
        ∃ vid ∈ r1.members.toFinset ∩ r2.members.toFinset,
          2 < (vertices.getD vid dummyVertex).value.rings.length) := by
  rw [RingConnection.isBridge]
  simp only [RingConnection.make, sharedVerticesLoop_eq]
  by_cases h : 2 < (r1.members.toFinset ∩ r2.members.toFinset).card
  · simp [h]
  · simp [h]

/-- C1 is not vacuous: on a concrete vertex array, a connection whose shared
vertex 2 lies on three rings is a bridge, and the same connection is not a
bridge when every shared vertex lies on two rings. -/
theorem ringConnection_isBridge_cases :
    (RingConnection.make { id := 0, members := [1, 2, 3] }
      { id := 1, members := [2, 3, 4] }).isBridge
      [ringsVertex 0 [], ringsVertex 1 [0], ringsVertex 2 [0, 1, 2], ringsVertex 3 [0, 1],
       ringsVertex 4 [1]] = true ∧
    (RingConnection.make { id := 0, members := [1, 2, 3] }
      { id := 1, members := [2, 3, 4] }).isBridge
      [ringsVertex 0 [], ringsVertex 1 [0], ringsVertex 2 [0, 1], ringsVertex 3 [0, 1],
       ringsVertex 4 [1]] = false := by
  constructor
  · exact (ringConnection_isBridge_iff _ _ _).mpr (by decide)
  · rw [Bool.eq_false_iff]
    intro h
    exact absurd ((ringConnection_isBridge_iff _ _ _).mp h) (by decide)

/-- C2 (amended): heavy-atom indices are handed out densely `0..k-1` in
visitation order and `atomIdxToVertexId` lists the ids of the vertices that
received one, in order; a non-root atom receives an index exactly when its
element is not `"H"`, while the root atom additionally receives one when it
has no chain continuation (`next` absent) — even when other atoms exist in
branches, contrary to the claim's "sole atom in the molecule". -/
theorem heavy_atom_index_assignment (t : ParseTreeNode) (iso : Bool) :
    idxList (Graph.build t iso).vertices = List.range (numHeavy t true) ∧
    (Graph.build t iso).atomIdxToVertexId = aivList (Graph.build t iso).vertices ∧
    (∀ (j : Nat) (w : Vertex), (Graph.build t iso).vertices[j]? = some w → 0 < j →
      w.value.idx.isSome = (w.value.element != "H")) ∧
    (∃ w : Vertex, (Graph.build t iso).vertices[0]? = some w ∧
      w.value.idx.isSome = (atomElement t != "H" || t.next.isNone)) := by
  obtain ⟨hlen, hidx, haiv, hids, hpar, hidxs, ⟨w0, hw0, hp0, he0, hb0, hi0⟩, hst⟩ :=
    Graph.build_facts t iso
  have hnh : nodeHasIdx t true = (atomElement t != "H" || t.next.isNone) := by
    rw [nodeHasIdx_eq, Bool.and_true]
  refine ⟨by rw [hidx, List.range_eq_range'], haiv, hidxs, w0, hw0, ?_⟩
  rw [hi0, ← hnh]
  cases h : nodeHasIdx t true <;> simp

/-- C2, counterexample to the claim as stated: in the two-atom molecule
`H(C)` the hydrogen is not the sole atom, yet the builder assigns it
heavy-atom index 0 (its root atom has no chain continuation, which is the
condition the code actually tests). -/
theorem heavy_atom_index_claim_counterexample :
    1 < numAtoms c2Tree ∧
    ∃ w : Vertex, (Graph.build c2Tree true).vertices[0]? = some w ∧
      w.value.element = "H" ∧ w.value.idx = some 0 := by
  obtain ⟨_, _, _, _, _, _, ⟨w0, hw0, hp0, he0, hb0, hi0⟩, _⟩ := Graph.build_facts c2Tree true
  exact ⟨by decide, w0, hw0, by rw [he0]; rfl, by rw [hi0]; rfl⟩

/-- C3 fails on the code: building the graph of `C(=O)` records the branch
bond symbol `"="` on the created edge but leaves its weight at the
constructor default 1, even though the `Edge.bonds` symbol table maps `"="`
to bond order 2 (the edge literal inside `Graph._init` carries a local
`setBondType` that, unlike the `Edge` class method, never writes the
weight). -/
theorem edge_weight_table_bug :
    Edge.bonds "=" = some 2 ∧
    ∃ g : Graph, Graph.buildE c3Tree false = .ok g ∧
      ∃ e : Edge, g.edges[0]? = some e ∧ e.bondType = "=" ∧ e.weight = 1 := by
  have h : Graph.buildE c3Tree false = .ok
      { vertices := [recordChild 1 "O"
          { id := 0
            value := { idx := some 0, element := "C", bondType := "-", branchBond := none,
                       ringbonds := [], rings := [], bracket := none, cls := none,
                       isStereoCenter := false, isPartOfAromaticRing := false, bondCount := 0,
                       chirality := "", neighbouringElements := [] }
            neighbours := [], edges := [], spanningTreeChildren := [], parentVertexId := none,
            positioned := false, forcePositioned := false },
          linkToParent 0 "C"
          { id := 1
            value := { idx := some 1, element := "O", bondType := "-", branchBond := some "=",
                       ringbonds := [], rings := [], bracket := none, cls := none,
                       isStereoCenter := false, isPartOfAromaticRing := false, bondCount := 0,
                       chirality := "", neighbouringElements := [] }
            neighbours := [], edges := [], spanningTreeChildren := [], parentVertexId := none,
            positioned := false, forcePositioned := false }]
        edges := [{ id := 0, sourceId := 0, targetId := 1, weight := 1, bondType := "=",
                    isPartOfAromaticRing := false, center := false, wedge := "" }]
        atomIdxToVertexId := [0, 1]
        isomeric := false } := by
    simp only [Graph.buildE, initNode, initTail, initBranches, initStereo, addNodeVertex,
      addVertexModel, addEdgeModel, modifyVertexAt, initAtom, createVertex, nodeHasIdx,
      atomElement, atomBracket, orDash, linkToParent, recordChild, Edge.setBondTypeLiteral,
      c3Tree, bind, Except.bind, pure, Except.pure, addStereoHs, ParseTreeNode.atom,
      ParseTreeNode.next, ParseTreeNode.bond, ParseTreeNode.branchBond,
      ParseTreeNode.ringbonds, ParseTreeNode.branches]
    rfl
  exact ⟨rfl, _, h, _, rfl, rfl, rfl⟩

/-- C4: the built graph has exactly one vertex per parse-tree atom plus one
per stereo hydrogen (a bracket hydrogen of a chirality-tagged atom); every
chirality-tagged bracket vertex is marked a stereocenter and its bracket
hydrogens sit at the immediately following vertex ids as `"H"` children of
the stereocenter. -/
theorem build_vertex_count_and_stereo (t : ParseTreeNode) (iso : Bool) :
    (Graph.build t iso).vertices.length = numAtoms t + numStereoH t ∧
    ∀ (j : Nat) (w : Vertex) (b : Bracket), (Graph.build t iso).vertices[j]? = some w →
      w.value.bracket = some b → b.chirality ≠ "" →
      w.value.isStereoCenter = true ∧
      ∀ i, i < b.hcount → ∃ hw, (Graph.build t iso).vertices[j + 1 + i]? = some hw ∧
        hw.value.element = "H" ∧ hw.parentVertexId = some j ∧
        (j + 1 + i) ∈ w.spanningTreeChildren := by
  obtain ⟨hlen, _, _, _, _, _, _, hst⟩ := Graph.build_facts t iso
  exact ⟨hlen, hst⟩

/-- C4 is not vacuous: the stereo molecule of `c4Tree` builds three vertices —
the stereocenter (marked as such) and its two hydrogen children. -/
theorem build_vertex_count_and_stereo_demo :
    (Graph.build c4Tree true).vertices.length = 3 ∧
    ∃ (w h1 h2 : Vertex),
      (Graph.build c4Tree true).vertices[0]? = some w ∧ w.value.isStereoCenter = true ∧
      (Graph.build c4Tree true).vertices[1]? = some h1 ∧ h1.value.element = "H" ∧
        h1.parentVertexId = some 0 ∧ 1 ∈ w.spanningTreeChildren ∧
      (Graph.build c4Tree true).vertices[2]? = some h2 ∧ h2.value.element = "H" ∧
        h2.parentVertexId = some 0 ∧ 2 ∈ w.spanningTreeChildren := by
  obtain ⟨hlen, _, _, _, _, _, ⟨w0, hw0, hp0, he0, hb0, hi0⟩, hst⟩ :=
    Graph.build_facts c4Tree true
  have hb : w0.value.bracket = some { element := "C", hcount := 2, chirality := "@"
                                      charge := 0, isotope := none, cls := none } := by
    rw [hb0]
    rfl
  obtain ⟨hsc, hkids⟩ := hst 0 w0 _ hw0 hb (by decide)
  obtain ⟨h1, hh1, he1, hp1, hm1⟩ := hkids 0 (by decide)
  obtain ⟨h2, hh2, he2, hp2, hm2⟩ := hkids 1 (by decide)
  refine ⟨by rw [hlen]; rfl, w0, h1, h2, hw0, hsc, by simpa using hh1, he1, hp1,
    by simpa using hm1, by simpa using hh2, he2, hp2, by simpa using hm2⟩

/-- C5: on every parse tree of the documented shape, the embedded `Graph`
constructor terminates with a graph and never takes an error path (the Lean
embedding returns `Except.ok` on every input; its only `throw` is proved
unreachable). -/
theorem graph_builder_total (t : ParseTreeNode) (iso : Bool) :
    ∃ g : Graph, Graph.buildE t iso = .ok g := by
  obtain ⟨g, hg, -⟩ := Graph.buildE_facts t iso
  exact ⟨g, hg⟩

/-- C6: vertex ids of a built graph are dense `0..n-1` in creation order;
vertex 0 (the root) has no parent; every later vertex's parent is an
already-created vertex (strictly smaller id) that lists it among its
spanning-tree children and neighbours; following parent pointers from any
vertex reaches vertex 0, so the spanning tree is acyclic and rooted at 0. -/
theorem build_dense_ids_rooted_tree (t : ParseTreeNode) (iso : Bool) :
    (∀ (j : Nat) (w : Vertex), (Graph.build t iso).vertices[j]? = some w → w.id = j) ∧
    (∀ w : Vertex, (Graph.build t iso).vertices[0]? = some w → w.parentVertexId = none) ∧
    (∀ (j : Nat) (w : Vertex), (Graph.build t iso).vertices[j]? = some w → 0 < j →
      ∃ q qw, w.parentVertexId = some q ∧ q < j ∧
        (Graph.build t iso).vertices[q]? = some qw ∧
        j ∈ qw.spanningTreeChildren ∧ j ∈ qw.neighbours) ∧
    (∀ j : Nat, j < (Graph.build t iso).vertices.length →
      Relation.ReflTransGen (fun a b => parentOf (Graph.build t iso) a = some b) j 0) := by
  obtain ⟨_, _, _, hids, hpar, _, ⟨w0, hw0, hp0, _, _, _⟩, _⟩ := Graph.build_facts t iso
  refine ⟨hids, ?_, hpar, Graph.build_rooted t iso⟩
  intro w hw
  rw [hw0] at hw
  cases hw
  exact hp0

/-- C7: the `Atom` constructor upper-cases a one-letter element symbol (longer
symbols are stored as supplied) and flags the atom aromatic exactly when the
supplied string differs from the stored one (lower-case notation); a ring of
such atoms is aromatic under the spec's ring-aromaticity rule exactly when
every member was supplied in lower-case notation. -/
theorem atom_constructor_aromatic_flag (element bondType : String) :
    ((Atom.make element bondType).element =
      if element.length = 1 then jsToUpper element else element) ∧
    ((Atom.make element bondType).isPartOfAromaticRing = true ↔
      element ≠ (if element.length = 1 then jsToUpper element else element)) ∧
    (∀ elems : List String,
      ringAromaticModel (elems.map fun e => Atom.make e "-") = true ↔
        ∀ e ∈ elems, e ≠ (if e.length = 1 then jsToUpper e else e)) := by
  refine ⟨rfl, ?_, ?_⟩
  · show (element != if element.length = 1 then jsToUpper element else element) = true ↔ _
    exact bne_iff_ne
  · intro elems
    rw [ringAromaticModel, List.all_eq_true]
    constructor
    · intro h e he
      have := h (Atom.make e "-") (List.mem_map_of_mem _ he)
      revert this
      show (e != if e.length = 1 then jsToUpper e else e) = true → _
      exact bne_iff_ne.mp
    · intro h a ha
      obtain ⟨e, he, rfl⟩ := List.mem_map.mp ha
      show (e != if e.length = 1 then jsToUpper e else e) = true
      exact bne_iff_ne.mpr (h e he)

/-- C7 is not vacuous: `"c"` is stored as `"C"` and flagged aromatic, `"N"`
is stored unchanged and not flagged, the two-letter `"se"` is stored as
supplied, and a ring is aromatic exactly when all members are lower-case. -/
theorem atom_constructor_aromatic_cases :
    (Atom.make "c" "-").element = "C" ∧
    (Atom.make "c" "-").isPartOfAromaticRing = true ∧
    (Atom.make "N" "-").isPartOfAromaticRing = false ∧
    (Atom.make "se" "-").element = "se" ∧
    ringAromaticModel [Atom.make "c" "-", Atom.make "n" "-"] = true ∧
    ringAromaticModel [Atom.make "c" "-", Atom.make "N" "-"] = false := by
  decide

/-- C8: the embedded pipeline stage is a pure function of the parse tree and
the isomeric flag — two constructions from equal inputs yield equal
vertex/edge structures. -/
theorem build_deterministic (t1 t2 : ParseTreeNode) (iso1 iso2 : Bool)
    (h1 : t1 = t2) (h2 : iso1 = iso2) :
    Graph.build t1 iso1 = Graph.build t2 iso2 := by
  subst h1
  subst h2
  rfl

/-- C8 witness at a concrete input: both hypotheses discharged by `rfl`. -/
theorem build_deterministic_witness :
    Graph.build stereoHLeaf true = Graph.build stereoHLeaf true :=
  build_deterministic stereoHLeaf stereoHLeaf true true rfl rfl

/-- C10: `ThemeManager.getColor` returns the theme entry of the upper-cased
key when the key is non-empty and that entry exists, and falls back to the
theme's carbon entry for an empty or unknown key; it is total. -/
theorem getColor_lookup_fallback (theme : List (String × String)) (key : String) :
    (key = "" → getColor theme key = theme.lookup "C") ∧
    (∀ v : String, key ≠ "" → theme.lookup (jsToUpper key) = some v →
      getColor theme key = some v) ∧
    (theme.lookup (jsToUpper key) = none → getColor theme key = theme.lookup "C") := by
  refine ⟨?_, ?_, ?_⟩
  · intro h
    simp [getColor, h]
  · intro v hk hv
    simp [getColor, hk, hv]
  · intro hv
    by_cases hk : key = "" <;> simp [getColor, hk, hv]

/-- C10 is not vacuous: lookup of a lower-case known key, an empty key and an
unknown key on a two-entry theme. -/
theorem getColor_lookup_cases :
    getColor [("C", "#222"), ("N", "#3050F8")] "n" = some "#3050F8" ∧
    getColor [("C", "#222"), ("N", "#3050F8")] "" = some "#222" ∧
    getColor [("C", "#222"), ("N", "#3050F8")] "Xq" = some "#222" := by
  decide

section Orbits

variable {n : Nat} (σ : Equiv.Perm (Fin n))

theorem perm_mem_periodicPts (x : Fin n) : x ∈ Function.periodicPts ⇑σ := by
  refine Function.mem_periodicPts.mpr ⟨orderOf σ, orderOf_pos σ, ?_⟩
  show (⇑σ)^[orderOf σ] x = x
  rw [← Equiv.Perm.coe_pow, pow_orderOf_eq_one]
  rfl

theorem orbLen_pos (x : Fin n) : 0 < Function.minimalPeriod ⇑σ x :=
  Function.minimalPeriod_pos_of_mem_periodicPts (perm_mem_periodicPts σ x)

theorem orbLen_iterate (x : Fin n) : (σ ^ Function.minimalPeriod ⇑σ x) x = x := by
  show (⇑σ)^[Function.minimalPeriod ⇑σ x] x = x
  exact Function.iterate_minimalPeriod

theorem orbLen_le (x : Fin n) : Function.minimalPeriod ⇑σ x ≤ n := by
  have hinj : Set.InjOn (fun k => (σ ^ k) x) ↑(Finset.range (Function.minimalPeriod ⇑σ x)) := by
    rw [Finset.coe_range]
    exact Function.iterate_injOn_Iio_minimalPeriod
  have h := Finset.card_le_card_of_injOn (fun k => (σ ^ k) x)
    (fun a _ => Finset.mem_univ _) hinj
  simpa using h

theorem pow_mod_orbLen (x : Fin n) (k : Nat) :
    (σ ^ (k % Function.minimalPeriod ⇑σ x)) x = (σ ^ k) x := by
  show (⇑σ)^[k % Function.minimalPeriod ⇑σ x] x = (⇑σ)^[k] x
  exact Function.iterate_mod_minimalPeriod_eq

theorem mem_orbitOf {x y : Fin n} : y ∈ orbitOf σ x ↔ ∃ k : Nat, (σ ^ k) x = y := by
  constructor
  · intro h
    obtain ⟨k, _, hk⟩ := Finset.mem_image.mp h
    exact ⟨k, hk⟩
  · rintro ⟨k, rfl⟩
    refine Finset.mem_image.mpr ⟨k % Function.minimalPeriod ⇑σ x, ?_, pow_mod_orbLen σ x k⟩
    refine Finset.mem_range.mpr (lt_of_lt_of_le ?_ (orbLen_le σ x))
    exact Nat.mod_lt _ (orbLen_pos σ x)

theorem mem_orbitOf_self (x : Fin n) : x ∈ orbitOf σ x :=
  (mem_orbitOf σ).mpr ⟨0, rfl⟩

theorem mem_orbitOf_symm {x y : Fin n} (h : y ∈ orbitOf σ x) : x ∈ orbitOf σ y := by
  obtain ⟨k, rfl⟩ := (mem_orbitOf σ).mp h
  set T := Function.minimalPeriod ⇑σ x with hT
  refine (mem_orbitOf σ).mpr ⟨T - k % T, ?_⟩
  rw [← pow_mod_orbLen σ x k, ← Equiv.Perm.mul_apply, ← pow_add,
    Nat.sub_add_cancel (le_of_lt (Nat.mod_lt _ (orbLen_pos σ x)))]
  exact orbLen_iterate σ x

theorem mem_orbitOf_trans {x y z : Fin n} (hz : z ∈ orbitOf σ y) (hy : y ∈ orbitOf σ x) :
    z ∈ orbitOf σ x := by
  obtain ⟨k, rfl⟩ := (mem_orbitOf σ).mp hz
  obtain ⟨m, rfl⟩ := (mem_orbitOf σ).mp hy
  exact (mem_orbitOf σ).mpr ⟨k + m, by rw [pow_add, Equiv.Perm.mul_apply]⟩

theorem orbitOf_eq_of_mem {x y : Fin n} (h : y ∈ orbitOf σ x) :
    orbitOf σ y = orbitOf σ x := by
  ext z
  exact ⟨fun hz => mem_orbitOf_trans σ hz h,
    fun hz => mem_orbitOf_trans σ hz (mem_orbitOf_symm σ h)⟩

theorem apply_mem_orbitOf {x y : Fin n} (h : y ∈ orbitOf σ x) : σ y ∈ orbitOf σ x := by
  obtain ⟨k, rfl⟩ := (mem_orbitOf σ).mp h
  refine (mem_orbitOf σ).mpr ⟨k + 1, ?_⟩
  rw [pow_succ', Equiv.Perm.mul_apply]

theorem orbitOf_fixed {x : Fin n} (h : σ x = x) : orbitOf σ x = {x} := by
  ext y
  rw [mem_orbitOf, Finset.mem_singleton]
  constructor
  · rintro ⟨k, rfl⟩
    show (⇑σ)^[k] x = x
    exact Function.IsFixedPt.iterate h k
  · rintro rfl
    exact ⟨0, rfl⟩

theorem orbLen_eq_one_iff {x : Fin n} : Function.minimalPeriod ⇑σ x = 1 ↔ σ x = x :=
  Function.minimalPeriod_eq_one_iff_isFixedPt

theorem two_le_orbLen_iff {x : Fin n} : 2 ≤ Function.minimalPeriod ⇑σ x ↔ σ x ≠ x := by
  have hpos := orbLen_pos σ x
  have h1 := orbLen_eq_one_iff σ (x := x)
  constructor
  · intro h2 hfix
    rw [h1.mpr hfix] at h2
    omega
  · intro hfix
    rcases Nat.lt_or_ge (Function.minimalPeriod ⇑σ x) 2 with h | h
    · have hT1 : Function.minimalPeriod ⇑σ x = 1 := by omega
      exact absurd (h1.mp hT1) hfix
    · exact h

theorem orbit_nonfixed {x y : Fin n} (hx : σ x ≠ x) (hy : y ∈ orbitOf σ x) : σ y ≠ y := by
  intro hfix
  have h1 : orbitOf σ y = {y} := orbitOf_fixed σ hfix
  have h2 : orbitOf σ y = orbitOf σ x := orbitOf_eq_of_mem σ hy
  have h3 : x ∈ orbitOf σ x := mem_orbitOf_self σ x
  rw [← h2, h1, Finset.mem_singleton] at h3
  exact hx (h3 ▸ hfix)

theorem orbitOf_eq_image_range (x : Fin n) :
    orbitOf σ x = (Finset.range (Function.minimalPeriod ⇑σ x)).image fun k => (σ ^ k) x := by
  ext y
  rw [mem_orbitOf]
  constructor
  · rintro ⟨k, rfl⟩
    refine Finset.mem_image.mpr ⟨k % Function.minimalPeriod ⇑σ x,
      Finset.mem_range.mpr (Nat.mod_lt _ (orbLen_pos σ x)), pow_mod_orbLen σ x k⟩
  · intro h
    obtain ⟨k, _, hk⟩ := Finset.mem_image.mp h
    exact ⟨k, hk⟩

theorem card_orbitOf (x : Fin n) : (orbitOf σ x).card = Function.minimalPeriod ⇑σ x := by
  rw [orbitOf_eq_image_range, Finset.card_image_of_injOn, Finset.card_range]
  rw [Finset.coe_range]
  exact Function.iterate_injOn_Iio_minimalPeriod

theorem sameCycle_iff_mem_orbitOf {x y : Fin n} :
    σ.SameCycle x y ↔ y ∈ orbitOf σ x := by
  constructor
  · intro h
    obtain ⟨k, _, hk⟩ := Equiv.Perm.SameCycle.exists_pow_eq' h
    exact (mem_orbitOf σ).mpr ⟨k, hk⟩
  · intro h
    obtain ⟨k, hk⟩ := (mem_orbitOf σ).mp h
    exact ⟨(k : Int), by rw [zpow_natCast]; exact hk⟩

/-- The least element of the orbit of `x`. -/
theorem minRep_spec (x : Fin n) :
    (orbitOf σ x).min' ⟨x, mem_orbitOf_self σ x⟩ ∈ orbitOf σ x ∧
      isMinRep σ ((orbitOf σ x).min' ⟨x, mem_orbitOf_self σ x⟩) := by
  have hmem := Finset.min'_mem (orbitOf σ x) ⟨x, mem_orbitOf_self σ x⟩
  refine ⟨hmem, ?_⟩
  intro y hy
  rw [orbitOf_eq_of_mem σ hmem] at hy
  exact Finset.min'_le _ _ hy

theorem minRep_eq_self {m : Fin n} (hm : isMinRep σ m) :
    (orbitOf σ m).min' ⟨m, mem_orbitOf_self σ m⟩ = m :=
  le_antisymm (Finset.min'_le _ _ (mem_orbitOf_self σ m))
    (hm _ (Finset.min'_mem _ _))

end Orbits

/-! ### The even-orbit count and the cycle type -/

section CycleBridge

variable {n : Nat} (σ : Equiv.Perm (Fin n))

theorem minRepOf_mem_minReps {x : Fin n} (hx : σ x ≠ x) :
    (orbitOf σ x).min' ⟨x, mem_orbitOf_self σ x⟩ ∈ minReps σ := by
  obtain ⟨hmem, hmin⟩ := minRep_spec σ x
  refine Finset.mem_filter.mpr ⟨Finset.mem_univ _, hmin, ?_⟩
  exact (two_le_orbLen_iff σ).mpr (orbit_nonfixed σ hx hmem)

theorem support_card_eq_sum_minReps :
    σ.support.card = ∑ m ∈ minReps σ, Function.minimalPeriod ⇑σ m := by
  have h1 : ∀ x ∈ σ.support,
      (orbitOf σ x).min' ⟨x, mem_orbitOf_self σ x⟩ ∈ minReps σ := fun x hx =>
    minRepOf_mem_minReps σ (Equiv.Perm.mem_support.mp hx)
  rw [Finset.card_eq_sum_card_fiberwise h1]
  refine Finset.sum_congr rfl ?_
  intro m hm
  obtain ⟨-, hmin, h2⟩ := Finset.mem_filter.mp hm
  have hmfix : σ m ≠ m := (two_le_orbLen_iff σ).mp h2
  have hfiber : (σ.support.filter
      (fun x => (orbitOf σ x).min' ⟨x, mem_orbitOf_self σ x⟩ = m)) = orbitOf σ m := by
    ext x
    rw [Finset.mem_filter]
    constructor
    · rintro ⟨hxs, rfl⟩
      exact mem_orbitOf_symm σ (minRep_spec σ x).1
    · intro hx
      have hxs : σ x ≠ x := orbit_nonfixed σ hmfix hx
      have horb : orbitOf σ x = orbitOf σ m := orbitOf_eq_of_mem σ hx
      refine ⟨Equiv.Perm.mem_support.mpr hxs, le_antisymm ?_ ?_⟩
      · exact Finset.min'_le _ _ (by rw [horb]; exact mem_orbitOf_self σ m)
      · exact hmin _ (by rw [← horb]; exact Finset.min'_mem _ _)
  rw [hfiber, card_orbitOf]

theorem card_minReps_eq :
    (minReps σ).card = Multiset.card (Equiv.Perm.cycleType σ) := by
  rw [Equiv.Perm.cycleType_def, Multiset.card_map]
  show (minReps σ).card = Multiset.card σ.cycleFactorsFinset.val
  rw [← Finset.card_def]
  refine Finset.card_bij (fun m _ => σ.cycleOf m) ?_ ?_ ?_
  · intro m hm
    obtain ⟨-, -, h2⟩ := Finset.mem_filter.mp hm
    exact Equiv.Perm.cycleOf_mem_cycleFactorsFinset_iff.mpr
      (Equiv.Perm.mem_support.mpr ((two_le_orbLen_iff σ).mp h2))
  · intro m1 hm1 m2 hm2 heq
    obtain ⟨-, hmin1, h21⟩ := Finset.mem_filter.mp hm1
    obtain ⟨-, hmin2, h22⟩ := Finset.mem_filter.mp hm2
    have heq2 : σ.cycleOf m1 = σ.cycleOf m2 := heq
    have hfix1 : σ m1 ≠ m1 := (two_le_orbLen_iff σ).mp h21
    have hm2mem : m2 ∈ (σ.cycleOf m2).support :=
      (Equiv.Perm.mem_support_cycleOf_iff' ((two_le_orbLen_iff σ).mp h22)).mpr
        (Equiv.Perm.SameCycle.refl σ m2)
    rw [← heq2, Equiv.Perm.mem_support_cycleOf_iff' hfix1] at hm2mem
    have horb : m2 ∈ orbitOf σ m1 := (sameCycle_iff_mem_orbitOf σ).mp hm2mem
    have h12 : m1 ≤ m2 := hmin1 m2 horb
    have h21' : m2 ≤ m1 := hmin2 m1 (mem_orbitOf_symm σ horb)
    exact le_antisymm h12 h21'
  · intro c hc
    have hcyc := (Equiv.Perm.mem_cycleFactorsFinset_iff.mp hc).1
    obtain ⟨x, hx, -⟩ := hcyc
    have hxs : x ∈ c.support := Equiv.Perm.mem_support.mpr hx
    have hceq : c = σ.cycleOf x := Equiv.Perm.cycle_is_cycleOf hxs hc
    have hsx : σ x ≠ x := by
      have := (Equiv.Perm.mem_cycleFactorsFinset_iff.mp hc).2 x hxs
      rw [← this]
      exact hx
    refine ⟨(orbitOf σ x).min' ⟨x, mem_orbitOf_self σ x⟩, minRepOf_mem_minReps σ hsx, ?_⟩
    have hmm : (orbitOf σ x).min' ⟨x, mem_orbitOf_self σ x⟩ ∈ orbitOf σ x :=
      (minRep_spec σ x).1
    have hsc : σ.SameCycle x ((orbitOf σ x).min' ⟨x, mem_orbitOf_self σ x⟩) :=
      (sameCycle_iff_mem_orbitOf σ).mpr hmm
    show σ.cycleOf _ = c
    rw [hceq, Equiv.Perm.SameCycle.cycleOf_eq hsc]

theorem sum_minReps_eq :
    (∑ m ∈ minReps σ, Function.minimalPeriod ⇑σ m) = (Equiv.Perm.cycleType σ).sum := by
  rw [Equiv.Perm.sum_cycleType, support_card_eq_sum_minReps]

theorem evenOrbitCount_filter :
    evenOrbitCount σ = ((minReps σ).filter
      (fun m => Function.minimalPeriod ⇑σ m % 2 = 0)).card := by
  unfold evenOrbitCount minReps
  congr 1
  rw [Finset.filter_filter]
  refine Finset.filter_congr ?_
  intro m _
  constructor
  · rintro ⟨h1, h2⟩
    have := orbLen_pos σ m
    exact ⟨⟨h1, by omega⟩, h2⟩
  · rintro ⟨⟨h1, _⟩, h2⟩
    exact ⟨h1, h2⟩

theorem evenOrbitCount_mod_two :
    evenOrbitCount σ % 2 =
      ((Equiv.Perm.cycleType σ).sum + Multiset.card (Equiv.Perm.cycleType σ)) % 2 := by
  have key : ((evenOrbitCount σ : Nat) : ZMod 2) =
      (((Equiv.Perm.cycleType σ).sum + Multiset.card (Equiv.Perm.cycleType σ) : Nat) : ZMod 2) := by
    rw [evenOrbitCount_filter, ← sum_minReps_eq, ← card_minReps_eq, Finset.card_filter,
      Finset.card_eq_sum_ones, Nat.cast_sum, Nat.cast_add, Nat.cast_sum, Nat.cast_sum,
      ← Finset.sum_add_distrib]
    refine Finset.sum_congr rfl ?_
    intro m _
    by_cases h : Function.minimalPeriod ⇑σ m % 2 = 0
    · rw [if_pos h]
      have h2 : ((Function.minimalPeriod ⇑σ m : Nat) : ZMod 2) = 0 := by
        rw [← ZMod.natCast_mod, h]
        rfl
      rw [h2, zero_add, Nat.cast_one]
    · rw [if_neg h]
      have h1 : Function.minimalPeriod ⇑σ m % 2 = 1 :=
        (Nat.mod_two_eq_zero_or_one _).resolve_left h
      have h2 : ((Function.minimalPeriod ⇑σ m : Nat) : ZMod 2) = 1 := by
        rw [← ZMod.natCast_mod, h1]
        rfl
      rw [h2, Nat.cast_zero, Nat.cast_one]
      decide
  exact (ZMod.natCast_eq_natCast_iff _ _ _).mp key

end CycleBridge

/-! ### The traversal marks exactly one orbit -/

section Loop

variable {n : Nat} (σ : Equiv.Perm (Fin n))

theorem permList_length : (permList σ).length = n := by
  simp [permList]

theorem permList_getD (x : Fin n) : (permList σ).getD x.val 0 = ((σ x : Fin n) : Nat) := by
  have h : x.val < (permList σ).length := by rw [permList_length]; exact x.isLt
  rw [List.getD_eq_getElem?_getD, List.getElem?_eq_getElem h]
  simp [permList]

theorem markCycle_length (x : Fin n) (vis : List Bool) (k : Nat) :
    (markCycle σ x vis k).length = vis.length := by
  induction k with
  | zero => rfl
  | succ k ih => rw [markCycle, List.length_set, ih]

theorem markCycle_getD (x : Fin n) (vis : List Bool) (hlen : vis.length = n) (k : Nat)
    (y : Fin n) (d : Bool) :
    (markCycle σ x vis k).getD y.val d =
      if ∃ m ∈ Finset.range k, (σ ^ m) x = y then true else vis.getD y.val d := by
  induction k with
  | zero => simp [markCycle]
  | succ k ih =>
    have hylen : y.val < (markCycle σ x vis k).length := by
      rw [markCycle_length, hlen]
      exact y.isLt
    rw [markCycle, List.getD_eq_getElem?_getD, List.getElem?_set]
    by_cases hy : ((σ ^ k) x) = y
    · subst hy
      rw [if_pos rfl, if_pos hylen]
      rw [if_pos ⟨k, Finset.mem_range.mpr (Nat.lt_succ_self k), rfl⟩]
      rfl
    · have hyv : ¬ ((σ ^ k) x).val = y.val := fun h => hy (Fin.ext h)
      rw [if_neg hyv, ← List.getD_eq_getElem?_getD, ih]
      have hcond : (∃ m ∈ Finset.range (k + 1), (σ ^ m) x = y) ↔
          (∃ m ∈ Finset.range k, (σ ^ m) x = y) := by
        constructor
        · rintro ⟨m, hm, hmy⟩
          rcases Nat.lt_or_ge m k with h | h
          · exact ⟨m, Finset.mem_range.mpr h, hmy⟩
          · have hmk : m = k := by
              have := Finset.mem_range.mp hm
              omega
            exact absurd (hmk ▸ hmy) hy
        · rintro ⟨m, hm, hmy⟩
          exact ⟨m, Finset.mem_range.mpr (by have := Finset.mem_range.mp hm; omega), hmy⟩
      rw [if_congr hcond rfl rfl]

/-- Started at an unmarked `x` over a mark array closed under `σ`, the
traversal walks the orbit of `x` once: it returns the orbit length and marks
exactly the orbit. -/
theorem traverseCycle_spec (vis : List Bool) (x : Fin n) (c : Nat)
    (hlen : vis.length = n)
    (hclosed : ∀ y : Fin n, vis.getD y.val true = true → vis.getD (σ y).val true = true)
    (hx : vis.getD x.val true = false) :
    traverseCycle (permList σ) vis x.val c =
      (c + Function.minimalPeriod ⇑σ x,
        markCycle σ x vis (Function.minimalPeriod ⇑σ x)) := by
  have hclosed2 : ∀ (j m : Nat), vis.getD ((σ ^ j) x).val true = true →
      vis.getD ((σ ^ (j + m)) x).val true = true := by
    intro j m
    induction m with
    | zero => exact fun h => h
    | succ m ih =>
      intro h
      have h2 := hclosed _ (ih h)
      have h3 : (σ ^ (j + (m + 1))) x = σ ((σ ^ (j + m)) x) := by
        rw [show j + (m + 1) = (j + m) + 1 by omega, pow_succ', Equiv.Perm.mul_apply]
      rw [h3]
      exact h2
  have hvisfalse : ∀ k : Nat, vis.getD ((σ ^ k) x).val true = false := by
    intro k
    rw [← pow_mod_orbLen σ x k]
    cases hb : vis.getD ((σ ^ (k % Function.minimalPeriod ⇑σ x)) x).val true with
    | false => rfl
    | true =>
      exfalso
      have h2 := hclosed2 (k % Function.minimalPeriod ⇑σ x)
        (Function.minimalPeriod ⇑σ x - k % Function.minimalPeriod ⇑σ x) hb
      rw [Nat.add_sub_cancel' (le_of_lt (Nat.mod_lt _ (orbLen_pos σ x))),
        orbLen_iterate σ x, hx] at h2
      cases h2
  have key : ∀ d k, k + d = Function.minimalPeriod ⇑σ x →
      traverseCycle (permList σ) (markCycle σ x vis k) ((σ ^ k) x).val (c + k) =
        (c + Function.minimalPeriod ⇑σ x,
          markCycle σ x vis (Function.minimalPeriod ⇑σ x)) := by
    intro d
    induction d with
    | zero =>
      intro k hk
      have hkT : k = Function.minimalPeriod ⇑σ x := by omega
      subst hkT
      rw [traverseCycle]
      have hcond : (markCycle σ x vis (Function.minimalPeriod ⇑σ x)).getD
          ((σ ^ Function.minimalPeriod ⇑σ x) x).val true = true := by
        rw [markCycle_getD σ x vis hlen]
        rw [if_pos ⟨0, Finset.mem_range.mpr (orbLen_pos σ x), by
          rw [pow_zero]
          exact (orbLen_iterate σ x).symm⟩]
      rw [dif_pos hcond]
    | succ d ih =>
      intro k hk
      have hkT : k < Function.minimalPeriod ⇑σ x := by omega
      rw [traverseCycle]
      have hcond : (markCycle σ x vis k).getD ((σ ^ k) x).val true = false := by
        rw [markCycle_getD σ x vis hlen]
        rw [if_neg ?hne]
        case hne =>
          rintro ⟨m, hm, hmy⟩
          have hmk : m < k := Finset.mem_range.mp hm
          have heq : m = k := Function.iterate_injOn_Iio_minimalPeriod
            (Set.mem_Iio.mpr (lt_trans hmk hkT)) (Set.mem_Iio.mpr hkT) hmy
          omega
        exact hvisfalse k
      rw [dif_neg (by rw [hcond]; simp)]
      have hset : (markCycle σ x vis k).set ((σ ^ k) x).val true =
          markCycle σ x vis (k + 1) := rfl
      have harr : (permList σ).getD ((σ ^ k) x).val 0 = ((σ ^ (k + 1)) x).val := by
        rw [permList_getD]
        have h3 : σ ((σ ^ k) x) = (σ ^ (k + 1)) x := by
          rw [pow_succ', Equiv.Perm.mul_apply]
        rw [h3]
      rw [hset, harr, show c + k + 1 = c + (k + 1) by omega]
      exact ih (k + 1) (by omega)
  have h0 := key (Function.minimalPeriod ⇑σ x) 0 (by omega)
  simpa [markCycle] using h0

theorem getD_of_lt {l : List Bool} {i : Nat} (h : i < l.length) (d d' : Bool) :
    l.getD i d = l.getD i d' := by
  rw [List.getD_eq_getElem?_getD, List.getD_eq_getElem?_getD, List.getElem?_eq_getElem h]
  rfl

/-- The scan loop invariant: entering iteration `i` with exactly the orbits of
the first `i` indices marked, the loop adds one count per even-length orbit
whose minimal representative is at least `i`. -/
theorem parityAux_spec :
    ∀ (d i : Nat) (vis : List Bool) (ec : Nat), i + d = n → vis.length = n →
    (∀ y : Fin n, vis.getD y.val true = true ↔ ∃ j : Fin n, j.val < i ∧ y ∈ orbitOf σ j) →
    parityAux (permList σ) i vis ec =
      ec + (Finset.univ.filter fun m : Fin n =>
        i ≤ m.val ∧ isMinRep σ m ∧ Function.minimalPeriod ⇑σ m % 2 = 0).card := by
  intro d
  induction d with
  | zero =>
    intro i vis ec hd hlen hinv
    rw [parityAux, if_neg (by rw [permList_length]; omega)]
    have hempty : (Finset.univ.filter fun m : Fin n =>
        i ≤ m.val ∧ isMinRep σ m ∧ Function.minimalPeriod ⇑σ m % 2 = 0) = ∅ := by
      refine Finset.filter_false_of_mem ?_
      intro m _
      rintro ⟨h1, -, -⟩
      have := m.isLt
      omega
    rw [hempty, Finset.card_empty]
    rfl
  | succ d ih =>
    intro i vis ec hd hlen hinv
    have hi : i < n := by omega
    rw [parityAux, if_pos (by rw [permList_length]; omega)]
    by_cases hv : vis.getD i false = true
    · rw [if_pos hv]
      have hvt : vis.getD (⟨i, hi⟩ : Fin n).val true = true := by
        rw [getD_of_lt (show (⟨i, hi⟩ : Fin n).val < vis.length by rw [hlen]; exact hi) true false]
        exact hv
      obtain ⟨j, hj, hmem⟩ := (hinv ⟨i, hi⟩).mp hvt
      have hnotmin : ¬ isMinRep σ ⟨i, hi⟩ := by
        intro hmin
        have hle := hmin j (mem_orbitOf_symm σ hmem)
        have hle2 : i ≤ j.val := hle
        omega
      have hfeq : (Finset.univ.filter fun m : Fin n =>
          i ≤ m.val ∧ isMinRep σ m ∧ Function.minimalPeriod ⇑σ m % 2 = 0) =
          (Finset.univ.filter fun m : Fin n =>
          i + 1 ≤ m.val ∧ isMinRep σ m ∧ Function.minimalPeriod ⇑σ m % 2 = 0) := by
        refine Finset.filter_congr ?_
        intro m _
        constructor
        · rintro ⟨h1, h2⟩
          rcases Nat.eq_or_lt_of_le h1 with heq | hlt
          · exfalso
            have hmx : m = ⟨i, hi⟩ := Fin.ext heq.symm
            exact hnotmin (hmx ▸ h2.1)
          · exact ⟨by omega, h2⟩
        · rintro ⟨h1, h2⟩
          exact ⟨by omega, h2⟩
      rw [hfeq]
      refine ih (i + 1) vis ec (by omega) hlen ?_
      intro y
      rw [hinv y]
      constructor
      · rintro ⟨j', hj', hmem'⟩
        exact ⟨j', by omega, hmem'⟩
      · rintro ⟨j', hj', hmem'⟩
        rcases Nat.lt_or_ge j'.val i with h | h
        · exact ⟨j', h, hmem'⟩
        · have hj'i : j' = (⟨i, hi⟩ : Fin n) := Fin.ext (show j'.val = i by omega)
          subst hj'i
          exact ⟨j, hj, mem_orbitOf_trans σ hmem' hmem⟩
    · rw [if_neg hv]
      have hvf : vis.getD (⟨i, hi⟩ : Fin n).val true = false := by
        rw [getD_of_lt (show (⟨i, hi⟩ : Fin n).val < vis.length by rw [hlen]; exact hi) true false]
        simp only [Bool.not_eq_true] at hv
        exact hv
      have hclosed : ∀ y : Fin n, vis.getD y.val true = true →
          vis.getD (σ y).val true = true := by
        intro y hy
        obtain ⟨j, hj, hmem⟩ := (hinv y).mp hy
        exact (hinv (σ y)).mpr ⟨j, hj, apply_mem_orbitOf σ hmem⟩
      have htrav : traverseCycle (permList σ) vis i 0 =
          (0 + Function.minimalPeriod ⇑σ (⟨i, hi⟩ : Fin n),
            markCycle σ ⟨i, hi⟩ vis (Function.minimalPeriod ⇑σ (⟨i, hi⟩ : Fin n))) :=
        traverseCycle_spec σ vis ⟨i, hi⟩ 0 hlen hclosed hvf
      have hmin : isMinRep σ ⟨i, hi⟩ := by
        intro y hy
        by_contra hle
        push_neg at hle
        have hle2 : y.val < i := hle
        have hvt : vis.getD (⟨i, hi⟩ : Fin n).val true = true :=
          (hinv ⟨i, hi⟩).mpr ⟨y, hle2, mem_orbitOf_symm σ hy⟩
        rw [hvf] at hvt
        cases hvt
      show parityAux (permList σ) (i + 1) (traverseCycle (permList σ) vis i 0).2
        (ec + (1 - (traverseCycle (permList σ) vis i 0).1 % 2)) = _
      rw [htrav]
      have hinv' : ∀ y : Fin n,
          (markCycle σ ⟨i, hi⟩ vis (Function.minimalPeriod ⇑σ (⟨i, hi⟩ : Fin n))).getD
            y.val true = true ↔
          ∃ j : Fin n, j.val < i + 1 ∧ y ∈ orbitOf σ j := by
        intro y
        rw [markCycle_getD σ ⟨i, hi⟩ vis hlen]
        by_cases hc : ∃ m ∈ Finset.range (Function.minimalPeriod ⇑σ (⟨i, hi⟩ : Fin n)),
            (σ ^ m) (⟨i, hi⟩ : Fin n) = y
        · rw [if_pos hc]
          constructor
          · intro _
            obtain ⟨m, _, hmy⟩ := hc
            exact ⟨⟨i, hi⟩, Nat.lt_succ_self i, (mem_orbitOf σ).mpr ⟨m, hmy⟩⟩
          · intro _
            rfl
        · rw [if_neg hc, hinv y]
          constructor
          · rintro ⟨j, hj, hmem⟩
            exact ⟨j, by omega, hmem⟩
          · rintro ⟨j, hj, hmem⟩
            rcases Nat.lt_or_ge j.val i with h | h
            · exact ⟨j, h, hmem⟩
            · exfalso
              have hji : j = (⟨i, hi⟩ : Fin n) := Fin.ext (show j.val = i by omega)
              subst hji
              apply hc
              rw [orbitOf_eq_image_range] at hmem
              obtain ⟨m, hm, hmy⟩ := Finset.mem_image.mp hmem
              exact ⟨m, hm, hmy⟩
      have hlen' : (markCycle σ ⟨i, hi⟩ vis
          (Function.minimalPeriod ⇑σ (⟨i, hi⟩ : Fin n))).length = n := by
        rw [markCycle_length, hlen]
      rw [ih (i + 1) _ _ (by omega) hlen' hinv']
      have hsplit : (Finset.univ.filter fun m : Fin n =>
          i ≤ m.val ∧ isMinRep σ m ∧ Function.minimalPeriod ⇑σ m % 2 = 0) =
          (if Function.minimalPeriod ⇑σ (⟨i, hi⟩ : Fin n) % 2 = 0 then
            insert (⟨i, hi⟩ : Fin n) (Finset.univ.filter fun m : Fin n =>
              i + 1 ≤ m.val ∧ isMinRep σ m ∧ Function.minimalPeriod ⇑σ m % 2 = 0)
          else (Finset.univ.filter fun m : Fin n =>
              i + 1 ≤ m.val ∧ isMinRep σ m ∧ Function.minimalPeriod ⇑σ m % 2 = 0)) := by
        by_cases hT2 : Function.minimalPeriod ⇑σ (⟨i, hi⟩ : Fin n) % 2 = 0
        · rw [if_pos hT2]
          ext m
          simp only [Finset.mem_filter, Finset.mem_insert, Finset.mem_univ, true_and]
          constructor
          · rintro ⟨h1, h2⟩
            rcases Nat.eq_or_lt_of_le h1 with heq | hlt
            · exact Or.inl (Fin.ext heq.symm)
            · exact Or.inr ⟨by omega, h2⟩
          · rintro (rfl | ⟨h1, h2⟩)
            · exact ⟨le_refl i, hmin, hT2⟩
            · exact ⟨by omega, h2⟩
        · rw [if_neg hT2]
          ext m
          simp only [Finset.mem_filter, Finset.mem_univ, true_and]
          constructor
          · rintro ⟨h1, h2⟩
            rcases Nat.eq_or_lt_of_le h1 with heq | hlt
            · exfalso
              have hmx : m = (⟨i, hi⟩ : Fin n) := Fin.ext heq.symm
              subst hmx
              exact hT2 h2.2
            · exact ⟨by omega, h2⟩
          · rintro ⟨h1, h2⟩
            exact ⟨by omega, h2⟩
      rw [hsplit]
      have hnotmem : (⟨i, hi⟩ : Fin n) ∉ (Finset.univ.filter fun m : Fin n =>
          i + 1 ≤ m.val ∧ isMinRep σ m ∧ Function.minimalPeriod ⇑σ m % 2 = 0) := by
        intro hmem
        have h2 : i + 1 ≤ i := (Finset.mem_filter.mp hmem).2.1
        omega
      by_cases hT2 : Function.minimalPeriod ⇑σ (⟨i, hi⟩ : Fin n) % 2 = 0
      · rw [if_pos hT2, Finset.card_insert_of_not_mem hnotmem]
        have h12 : 1 - (0 + Function.minimalPeriod ⇑σ (⟨i, hi⟩ : Fin n)) % 2 = 1 := by
          omega
        rw [h12]
        omega
      · rw [if_neg hT2]
        have hT1 : Function.minimalPeriod ⇑σ (⟨i, hi⟩ : Fin n) % 2 = 1 := by
          have := Nat.mod_two_eq_zero_or_one (Function.minimalPeriod ⇑σ (⟨i, hi⟩ : Fin n))
          omega
        have h12 : 1 - (0 + Function.minimalPeriod ⇑σ (⟨i, hi⟩ : Fin n)) % 2 = 0 := by
          omega
        rw [h12]
        omega

end Loop

section Final

variable {n : Nat} (σ : Equiv.Perm (Fin n))

theorem parityAux_eval :
    parityAux (permList σ) 0 (List.replicate n false) 0 = evenOrbitCount σ := by
  have h := parityAux_spec σ n 0 (List.replicate n false) 0 (by omega) (by simp) ?_
  · rw [h, Nat.zero_add]
    unfold evenOrbitCount
    congr 1
    refine Finset.filter_congr ?_
    intro m _
    simp [Nat.zero_le]
  · intro y
    constructor
    · intro h
      exfalso
      have hy : y.val < n := y.isLt
      rw [List.getD_eq_getElem?_getD, List.getElem?_eq_getElem (by simpa using hy)] at h
      simp at h
    · rintro ⟨j, hj, -⟩
      omega

theorem parityOfPermutation_permList :
    parityOfPermutation (permList σ) =
      if evenOrbitCount σ % 2 = 1 then -1 else 1 := by
  show (if parityAux (permList σ) 0
      (List.replicate (permList σ).length false) 0 % 2 = 1 then (-1 : Int) else 1) = _
  rw [permList_length, parityAux_eval]

end Final

/-- C9: `MathHelper.parityOfPermutation` computes the sign of the permutation:
on the array `[σ 0, σ 1, ..., σ (n-1)]` of any permutation `σ` of
`{0, ..., n-1}` it returns `1` for an even permutation and `-1` for an odd
one. -/
theorem parityOfPermutation_eq_sign (n : Nat) (σ : Equiv.Perm (Fin n)) :
    parityOfPermutation (permList σ) = (Equiv.Perm.sign σ : Int) := by
  rw [parityOfPermutation_permList]
  have hmod := evenOrbitCount_mod_two σ
  have hsignZ : ((Equiv.Perm.sign σ : ℤˣ) : ℤ) = (-1 : ℤ) ^
      ((Equiv.Perm.cycleType σ).sum + Multiset.card (Equiv.Perm.cycleType σ)) := by
    rw [Equiv.Perm.sign_of_cycleType σ]
    simp [Units.val_pow_eq_pow_val]
  rw [hsignZ]
  rcases Nat.mod_two_eq_zero_or_one (evenOrbitCount σ) with h | h
  · rw [if_neg (by omega)]
    have heven : Even ((Equiv.Perm.cycleType σ).sum +
        Multiset.card (Equiv.Perm.cycleType σ)) := Nat.even_iff.mpr (by omega)
    rw [Even.neg_one_pow heven]
  · rw [if_pos h]
    have hodd : Odd ((Equiv.Perm.cycleType σ).sum +
        Multiset.card (Equiv.Perm.cycleType σ)) := Nat.odd_iff.mpr (by omega)
    rw [Odd.neg_one_pow hodd]

end SD
